import Mathlib

/-!
Verification development for the spell-check orchestration engine of the
editor repository.

The embedding covers:
- `calculateEditDistance` and the suggestion-ranking pipeline of
  `SpellCheckerService.getSuggestions`;
- the word extractor (`extractWords`, `shouldCheckWord`, `normalizeWord`)
  together with the JS regex semantics of `\b[\w'-]+\b` and the
  trailing-boundary test;
- the spellcheck worker's `checkWord` (dictionary engine abstracted as a
  `String → Bool` oracle);
- the `WorkerManager` request table (`handleError`, `ensureWorker`,
  `isReady`, `terminate`);
- `SpellCheckerService` as an explicit state machine with a heap of
  `Set` objects, language-indexed cache maps, the pending-checks dedup
  table and a log of calls made to the `WorkerManager` API;
- the ProseMirror plugin's `apply` step and the debounced scan callback
  with its generation guard.

Asynchronous code is modelled by splitting each awaiting operation into
an issuing step (which records the protocol call and returns a promise
identifier) and a delivery step (which runs the `then`/`catch`
continuation on an explicit worker outcome).  JS `Map`s are association
lists, JS `Set`s live in a heap (`sets`) addressed by numeric ids so
that captured references and `Map.clear()` detachment are observable.
-/

namespace SpellCheck

/-! ## String helpers (embeddings of the JS string operations used) -/

/-- Embedding of JS `String.prototype.toLowerCase` (ASCII range). -/
def jsToLower (s : String) : String := ⟨s.data.map Char.toLower⟩

/-- Embedding of JS `String.prototype.trim`: drop whitespace from both ends. -/
def jsTrim (s : String) : String :=
  ⟨((s.data.dropWhile Char.isWhitespace).reverse.dropWhile Char.isWhitespace).reverse⟩

/-- Association-list lookup, modelling JS `Map.prototype.get`. -/
def alookup {κ β : Type} [DecidableEq κ] : List (κ × β) → κ → Option β
  | [], _ => none
  | (k, v) :: rest, key => if k = key then some v else alookup rest key

/-- Association-list removal, modelling JS `Map.prototype.delete`. -/
def aremove {κ β : Type} [DecidableEq κ] (l : List (κ × β)) (key : κ) : List (κ × β) :=
  l.filter fun p => decide (p.1 ≠ key)

/-- Association-list update, modelling JS `Map.prototype.set`. -/
def ainsert {κ β : Type} [DecidableEq κ] (l : List (κ × β)) (key : κ) (v : β) : List (κ × β) :=
  (key, v) :: aremove l key

theorem alookup_ainsert {κ β : Type} [DecidableEq κ] (l : List (κ × β)) (k : κ) (v : β) :
    alookup (ainsert l k v) k = some v := by
  simp [ainsert, alookup]

theorem alookup_aremove_ne {κ β : Type} [DecidableEq κ] (l : List (κ × β)) (k k' : κ)
    (h : k ≠ k') : alookup (aremove l k) k' = alookup l k' := by
  induction l with
  | nil => rfl
  | cons p rest ih =>
    by_cases hp : p.1 = k
    · have hp' : p.1 ≠ k' := by rw [hp]; exact h
      unfold aremove at ih ⊢
      rw [List.filter_cons_of_neg (by simp [hp])]
      rw [ih]
      simp [alookup, hp']
    · unfold aremove at ih ⊢
      rw [List.filter_cons_of_pos (by simp [hp])]
      by_cases hk' : p.1 = k'
      · simp [alookup, hk']
      · simp only [decide_not] at ih
        simp [alookup, hk']
        exact ih

theorem alookup_ainsert_ne {κ β : Type} [DecidableEq κ] (l : List (κ × β)) (k k' : κ) (v : β)
    (h : k ≠ k') : alookup (ainsert l k v) k' = alookup l k' := by
  simp only [ainsert, alookup, if_neg h]
  exact alookup_aremove_ne l k k' h

/-! ## Edit distance: `calculateEditDistance` from `utils/wordExtractor.ts`

The source builds a `(len1+1) × (len2+1)` matrix where `matrix[i][j]`
follows the recurrence below.  `mat` is that recurrence; entry `(i, j)`
compares `str1[i-1]` with `str2[j-1]` exactly as the loop body does.  -/

/-- The DP matrix entry `matrix[i][j]` filled by `calculateEditDistance`'s
nested loops: first row `j`, first column `i`, and the loop body's
recurrence (on a character match take the diagonal, otherwise
`1 + min(deletion, insertion, substitution)`). -/
def mat (s1 s2 : List Char) : Nat → Nat → Nat
  | 0, j => j
  | i + 1, 0 => i + 1
  | i + 1, j + 1 =>
    if s1[i]? = s2[j]? then mat s1 s2 i j
    else min (mat s1 s2 i (j + 1) + 1) (min (mat s1 s2 (i + 1) j + 1) (mat s1 s2 i j + 1))

/-- `calculateEditDistance(str1, str2)` returns `matrix[len1][len2]`. -/
def calculateEditDistance (str1 str2 : String) : Nat :=
  mat str1.data str2.data str1.data.length str2.data.length

/-- Reference Levenshtein distance: the textbook recursion taking the
minimum over deletion, insertion and substitution, where substituting a
character by itself is free. -/
def levRef : List Char → List Char → Nat
  | [], ys => ys.length
  | _ :: xs, [] => xs.length + 1
  | x :: xs, y :: ys =>
    min (1 + levRef xs (y :: ys))
      (min (1 + levRef (x :: xs) ys) ((if x = y then 0 else 1) + levRef xs ys))
termination_by xs ys => xs.length + ys.length

/-- An edit script: `IsEditSeq a b n` holds when `a` can be rewritten to
`b` using exactly `n` single-character insertions, deletions and
substitutions (characters not touched are copied). -/
inductive IsEditSeq : List Char → List Char → Nat → Prop where
  | nil : IsEditSeq [] [] 0
  | copy (x : Char) {a b : List Char} {n : Nat} :
      IsEditSeq a b n → IsEditSeq (x :: a) (x :: b) n
  | subst (x y : Char) {a b : List Char} {n : Nat} :
      IsEditSeq a b n → IsEditSeq (x :: a) (y :: b) (n + 1)
  | insert (y : Char) {a b : List Char} {n : Nat} :
      IsEditSeq a b n → IsEditSeq a (y :: b) (n + 1)
  | delete (x : Char) {a b : List Char} {n : Nat} :
      IsEditSeq a b n → IsEditSeq (x :: a) b (n + 1)

theorem levRef_nil_left (ys : List Char) : levRef [] ys = ys.length := by
  cases ys <;> simp [levRef]

theorem levRef_nil_right (xs : List Char) : levRef xs [] = xs.length := by
  cases xs <;> simp [levRef]

theorem levRef_cons_cons (x y : Char) (xs ys : List Char) :
    levRef (x :: xs) (y :: ys) =
      min (1 + levRef xs (y :: ys))
        (min (1 + levRef (x :: xs) ys) ((if x = y then 0 else 1) + levRef xs ys)) := by
  rw [levRef]

theorem min3_le_first (a b c : Nat) : min a (min b c) ≤ a := Nat.min_le_left _ _

theorem min3_le_second (a b c : Nat) : min a (min b c) ≤ b :=
  le_trans (Nat.min_le_right _ _) (Nat.min_le_left _ _)

theorem min3_le_third (a b c : Nat) : min a (min b c) ≤ c :=
  le_trans (Nat.min_le_right _ _) (Nat.min_le_right _ _)

/-- The empty list rewrites to `c` with exactly `c.length` insertions. -/
theorem editSeq_nil_left_exists (c : List Char) : IsEditSeq [] c c.length := by
  induction c with
  | nil => exact IsEditSeq.nil
  | cons y ys ih => exact IsEditSeq.insert y ih

/-- `a` rewrites to the empty list with exactly `a.length` deletions. -/
theorem editSeq_nil_right_exists (a : List Char) : IsEditSeq a [] a.length := by
  induction a with
  | nil => exact IsEditSeq.nil
  | cons x xs ih => exact IsEditSeq.delete x ih

/-- Any edit script from the empty list to `c` costs exactly `c.length`. -/
theorem editSeq_nil_left_cost {c : List Char} {n : Nat} (h : IsEditSeq [] c n) :
    n = c.length := by
  generalize ha : ([] : List Char) = a at h
  induction h with
  | nil => rfl
  | copy x h ih => exact absurd ha (by simp)
  | subst x y h ih => exact absurd ha (by simp)
  | insert y h ih => simp [← ih ha]
  | delete x h ih => exact absurd ha (by simp)

/-- Any edit script from `a` to the empty list costs exactly `a.length`. -/
theorem editSeq_nil_right_cost {a : List Char} {n : Nat} (h : IsEditSeq a [] n) :
    n = a.length := by
  generalize hb : ([] : List Char) = b at h
  induction h with
  | nil => rfl
  | copy x h ih => exact absurd hb (by simp)
  | subst x y h ih => exact absurd hb (by simp)
  | insert y h ih => exact absurd hb (by simp)
  | delete x h ih => simp [← ih hb]

/-- The reference distance is achievable by an edit script. -/
theorem levRef_achieves_aux :
    ∀ (N : Nat) (a b : List Char), a.length + b.length ≤ N → IsEditSeq a b (levRef a b) := by
  intro N
  induction N with
  | zero =>
    intro a b hab
    have ha : a = [] := by cases a <;> simp_all
    have hb : b = [] := by cases b <;> simp_all
    subst ha; subst hb
    have h0 := levRef_nil_left []
    simp at h0
    rw [h0]
    exact IsEditSeq.nil
  | succ N ih =>
    intro a b hab
    match a, b with
    | [], b =>
      rw [levRef_nil_left]
      exact editSeq_nil_left_exists b
    | x :: xs, [] =>
      rw [levRef_nil_right]
      exact editSeq_nil_right_exists (x :: xs)
    | x :: xs, y :: ys =>
      rw [levRef_cons_cons]
      rcases min_choice (1 + levRef xs (y :: ys))
          (min (1 + levRef (x :: xs) ys) ((if x = y then 0 else 1) + levRef xs ys)) with h1 | h1
      · rw [h1, Nat.add_comm]
        exact IsEditSeq.delete x (ih xs (y :: ys) (by simp at hab ⊢; omega))
      · rw [h1]
        rcases min_choice (1 + levRef (x :: xs) ys) ((if x = y then 0 else 1) + levRef xs ys)
          with h2 | h2
        · rw [h2, Nat.add_comm]
          exact IsEditSeq.insert y (ih (x :: xs) ys (by simp at hab ⊢; omega))
        · rw [h2]
          by_cases hxy : x = y
          · subst hxy
            rw [if_pos rfl, Nat.zero_add]
            exact IsEditSeq.copy x (ih xs ys (by simp at hab ⊢; omega))
          · rw [if_neg hxy, Nat.add_comm]
            exact IsEditSeq.subst x y (ih xs ys (by simp at hab ⊢; omega))

theorem levRef_achieves (a b : List Char) : IsEditSeq a b (levRef a b) :=
  levRef_achieves_aux (a.length + b.length) a b le_rfl

/-- The reference distance is a lower bound for every edit script. -/
theorem levRef_min {a b : List Char} {n : Nat} (h : IsEditSeq a b n) : levRef a b ≤ n := by
  induction h with
  | nil =>
    have h0 := levRef_nil_left []
    simp at h0
    omega
  | copy x h ih =>
    rename_i a' b' n'
    have h3 : levRef (x :: a') (x :: b') ≤ (if x = x then 0 else 1) + levRef a' b' := by
      rw [levRef_cons_cons]; exact min3_le_third _ _ _
    rw [if_pos rfl] at h3
    omega
  | subst x y h ih =>
    rename_i a' b' n'
    have h3 : levRef (x :: a') (y :: b') ≤ (if x = y then 0 else 1) + levRef a' b' := by
      rw [levRef_cons_cons]; exact min3_le_third _ _ _
    have h4 : (if x = y then 0 else 1) ≤ 1 := by split <;> omega
    omega
  | insert y h ih =>
    rename_i a' b' n'
    cases a' with
    | nil =>
      rw [levRef_nil_left] at ih ⊢
      simp at ih ⊢
      omega
    | cons x' xs' =>
      have h2 : levRef (x' :: xs') (y :: b') ≤ 1 + levRef (x' :: xs') b' := by
        rw [levRef_cons_cons]; exact min3_le_second _ _ _
      omega
  | delete x h ih =>
    rename_i a' b' n'
    cases b' with
    | nil =>
      rw [levRef_nil_right] at ih ⊢
      simp at ih ⊢
      omega
    | cons y' ys' =>
      have h2 : levRef (x :: a') (y' :: ys') ≤ 1 + levRef a' (y' :: ys') := by
        rw [levRef_cons_cons]; exact min3_le_first _ _ _
      omega

theorem editSeq_cost_congr {a b : List Char} {n m : Nat} (h : IsEditSeq a b n)
    (e : n = m) : IsEditSeq a b m := e ▸ h

/-- Appending a character to the source costs one extra edit. -/
theorem editSeq_snoc_left (x : Char) {a b : List Char} {n : Nat} (h : IsEditSeq a b n) :
    IsEditSeq (a ++ [x]) b (n + 1) := by
  induction h with
  | nil => exact IsEditSeq.delete x IsEditSeq.nil
  | copy z h ih => exact IsEditSeq.copy z ih
  | subst z u h ih => exact IsEditSeq.subst z u ih
  | insert u h ih => exact IsEditSeq.insert u ih
  | delete z h ih => exact IsEditSeq.delete z ih

/-- Appending a character to the target costs one extra edit. -/
theorem editSeq_snoc_right (y : Char) {a b : List Char} {n : Nat} (h : IsEditSeq a b n) :
    IsEditSeq a (b ++ [y]) (n + 1) := by
  induction h with
  | nil => exact IsEditSeq.insert y IsEditSeq.nil
  | copy z h ih => exact IsEditSeq.copy z ih
  | subst z u h ih => exact IsEditSeq.subst z u ih
  | insert u h ih => exact IsEditSeq.insert u ih
  | delete z h ih => exact IsEditSeq.delete z ih

/-- Appending one character to each side costs a substitution (free when equal). -/
theorem editSeq_snoc_both (x y : Char) {a b : List Char} {n : Nat} (h : IsEditSeq a b n) :
    IsEditSeq (a ++ [x]) (b ++ [y]) (n + (if x = y then 0 else 1)) := by
  induction h with
  | nil =>
    by_cases hxy : x = y
    · subst hxy
      rw [if_pos rfl]
      exact IsEditSeq.copy x IsEditSeq.nil
    · rw [if_neg hxy]
      exact IsEditSeq.subst x y IsEditSeq.nil
  | copy z h ih => exact IsEditSeq.copy z ih
  | subst z u h ih => exact editSeq_cost_congr (IsEditSeq.subst z u ih) (by omega)
  | insert u h ih => exact editSeq_cost_congr (IsEditSeq.insert u ih) (by omega)
  | delete z h ih => exact editSeq_cost_congr (IsEditSeq.delete z ih) (by omega)

/-- Dropping the last character of the target costs at most one extra edit. -/
theorem editSeq_unsnoc_right {a c : List Char} {n : Nat} (h : IsEditSeq a c n) :
    ∀ (b : List Char) (y : Char), c = b ++ [y] → ∃ m, m ≤ n + 1 ∧ IsEditSeq a b m := by
  induction h with
  | nil =>
    intro b y hbc
    exact absurd hbc (by simp)
  | copy z h ih =>
    rename_i a₀ c₀ n₀
    intro b y hbc
    cases b with
    | nil =>
      simp at hbc
      obtain ⟨hzy, hc₀⟩ := hbc
      subst hc₀
      exact ⟨n₀ + 1, by omega, IsEditSeq.delete z h⟩
    | cons w b' =>
      simp at hbc
      obtain ⟨hzw, hc₀⟩ := hbc
      subst hzw
      obtain ⟨m, hm, hseq⟩ := ih b' y hc₀
      exact ⟨m, by omega, IsEditSeq.copy z hseq⟩
  | subst z u h ih =>
    rename_i a₀ c₀ n₀
    intro b y hbc
    cases b with
    | nil =>
      simp at hbc
      obtain ⟨hzy, hc₀⟩ := hbc
      subst hc₀
      exact ⟨n₀ + 1, by omega, IsEditSeq.delete z h⟩
    | cons w b' =>
      simp at hbc
      obtain ⟨hzw, hc₀⟩ := hbc
      subst hzw
      obtain ⟨m, hm, hseq⟩ := ih b' y hc₀
      exact ⟨m + 1, by omega, IsEditSeq.subst z u hseq⟩
  | insert u h ih =>
    rename_i a₀ c₀ n₀
    intro b y hbc
    cases b with
    | nil =>
      simp at hbc
      obtain ⟨hzy, hc₀⟩ := hbc
      subst hc₀
      exact ⟨n₀, by omega, h⟩
    | cons w b' =>
      simp at hbc
      obtain ⟨hzw, hc₀⟩ := hbc
      subst hzw
      obtain ⟨m, hm, hseq⟩ := ih b' y hc₀
      exact ⟨m + 1, by omega, IsEditSeq.insert u hseq⟩
  | delete z h ih =>
    rename_i a₀ c₀ n₀
    intro b y hbc
    obtain ⟨m, hm, hseq⟩ := ih b y hbc
    exact ⟨m + 1, by omega, IsEditSeq.delete z hseq⟩

/-- Dropping the last character of the source costs at most one extra edit. -/
theorem editSeq_unsnoc_left {c b : List Char} {n : Nat} (h : IsEditSeq c b n) :
    ∀ (a : List Char) (x : Char), c = a ++ [x] → ∃ m, m ≤ n + 1 ∧ IsEditSeq a b m := by
  induction h with
  | nil =>
    intro a x hac
    exact absurd hac (by simp)
  | copy z h ih =>
    rename_i c₀ b₀ n₀
    intro a x hac
    cases a with
    | nil =>
      simp at hac
      obtain ⟨hzx, hc₀⟩ := hac
      subst hc₀
      exact ⟨n₀ + 1, by omega, IsEditSeq.insert z h⟩
    | cons w a' =>
      simp at hac
      obtain ⟨hzw, hc₀⟩ := hac
      subst hzw
      obtain ⟨m, hm, hseq⟩ := ih a' x hc₀
      exact ⟨m, by omega, IsEditSeq.copy z hseq⟩
  | subst z u h ih =>
    rename_i c₀ b₀ n₀
    intro a x hac
    cases a with
    | nil =>
      simp at hac
      obtain ⟨hzx, hc₀⟩ := hac
      subst hc₀
      exact ⟨n₀ + 1, by omega, IsEditSeq.insert u h⟩
    | cons w a' =>
      simp at hac
      obtain ⟨hzw, hc₀⟩ := hac
      subst hzw
      obtain ⟨m, hm, hseq⟩ := ih a' x hc₀
      exact ⟨m + 1, by omega, IsEditSeq.subst z u hseq⟩
  | insert u h ih =>
    rename_i c₀ b₀ n₀
    intro a x hac
    obtain ⟨m, hm, hseq⟩ := ih a x hac
    exact ⟨m + 1, by omega, IsEditSeq.insert u hseq⟩
  | delete z h ih =>
    rename_i c₀ b₀ n₀
    intro a x hac
    cases a with
    | nil =>
      simp at hac
      obtain ⟨hzx, hc₀⟩ := hac
      subst hc₀
      exact ⟨n₀, by omega, h⟩
    | cons w a' =>
      simp at hac
      obtain ⟨hzw, hc₀⟩ := hac
      subst hzw
      obtain ⟨m, hm, hseq⟩ := ih a' x hc₀
      exact ⟨m + 1, by omega, IsEditSeq.delete z hseq⟩

/-- Inversion of an edit script at the last characters of both sides:
an optimal alignment either pays for the last source character, pays for
the last target character, or aligns the two (free iff they are equal). -/
theorem editSeq_snoc_inv {aa bb : List Char} {n : Nat} (h : IsEditSeq aa bb n) :
    ∀ (a : List Char) (x : Char) (b : List Char) (y : Char),
      aa = a ++ [x] → bb = b ++ [y] →
      (∃ m, m + 1 ≤ n ∧ IsEditSeq a (b ++ [y]) m) ∨
      (∃ m, m + 1 ≤ n ∧ IsEditSeq (a ++ [x]) b m) ∨
      (∃ m, m + (if x = y then 0 else 1) ≤ n ∧ IsEditSeq a b m) := by
  induction h with
  | nil =>
    intro a x b y ha hb
    exact absurd ha (by simp)
  | copy z h ih =>
    rename_i a₀ b₀ n₀
    intro a x b y ha hb
    cases a with
    | nil =>
      simp at ha
      obtain ⟨hzx, ha₀⟩ := ha
      subst ha₀
      cases b with
      | nil =>
        simp at hb
        obtain ⟨hzy, hb₀⟩ := hb
        subst hb₀
        have hn := editSeq_nil_left_cost h
        simp at hn
        refine Or.inr (Or.inr ⟨0, ?_, IsEditSeq.nil⟩)
        rw [if_pos (hzx.symm.trans hzy)]
        omega
      | cons w b' =>
        simp at hb
        obtain ⟨hzw, hb₀⟩ := hb
        subst hzw
        subst hb₀
        have hn := editSeq_nil_left_cost h
        simp at hn
        subst hzx
        refine Or.inr (Or.inl ⟨b'.length, ?_, IsEditSeq.copy z (editSeq_nil_left_exists b')⟩)
        omega
    | cons v a' =>
      simp at ha
      obtain ⟨hzv, ha₀⟩ := ha
      subst hzv
      subst ha₀
      cases b with
      | nil =>
        simp at hb
        obtain ⟨hzy, hb₀⟩ := hb
        subst hzy
        subst hb₀
        have hn := editSeq_nil_right_cost h
        simp at hn
        refine Or.inl ⟨a'.length, ?_, IsEditSeq.copy z (editSeq_nil_right_exists a')⟩
        omega
      | cons w b' =>
        simp at hb
        obtain ⟨hzw, hb₀⟩ := hb
        subst hzw
        subst hb₀
        rcases ih a' x b' y rfl rfl with ⟨m, hm, hs⟩ | ⟨m, hm, hs⟩ | ⟨m, hm, hs⟩
        · exact Or.inl ⟨m, hm, IsEditSeq.copy z hs⟩
        · exact Or.inr (Or.inl ⟨m, hm, IsEditSeq.copy z hs⟩)
        · exact Or.inr (Or.inr ⟨m, hm, IsEditSeq.copy z hs⟩)
  | subst z u h ih =>
    rename_i a₀ b₀ n₀
    intro a x b y ha hb
    cases a with
    | nil =>
      simp at ha
      obtain ⟨hzx, ha₀⟩ := ha
      subst ha₀
      cases b with
      | nil =>
        simp at hb
        obtain ⟨huy, hb₀⟩ := hb
        subst hb₀
        have hn := editSeq_nil_left_cost h
        simp at hn
        refine Or.inr (Or.inr ⟨0, ?_, IsEditSeq.nil⟩)
        have : (if x = y then 0 else 1) ≤ 1 := by split <;> omega
        omega
      | cons w b' =>
        simp at hb
        obtain ⟨huw, hb₀⟩ := hb
        subst huw
        subst hb₀
        have hn := editSeq_nil_left_cost h
        simp at hn
        subst hzx
        refine Or.inr (Or.inl ⟨b'.length + 1, ?_,
          IsEditSeq.subst z u (editSeq_nil_left_exists b')⟩)
        omega
    | cons v a' =>
      simp at ha
      obtain ⟨hzv, ha₀⟩ := ha
      subst hzv
      subst ha₀
      cases b with
      | nil =>
        simp at hb
        obtain ⟨huy, hb₀⟩ := hb
        subst huy
        subst hb₀
        have hn := editSeq_nil_right_cost h
        simp at hn
        refine Or.inl ⟨a'.length + 1, ?_, IsEditSeq.subst z u (editSeq_nil_right_exists a')⟩
        omega
      | cons w b' =>
        simp at hb
        obtain ⟨huw, hb₀⟩ := hb
        subst huw
        subst hb₀
        rcases ih a' x b' y rfl rfl with ⟨m, hm, hs⟩ | ⟨m, hm, hs⟩ | ⟨m, hm, hs⟩
        · exact Or.inl ⟨m + 1, by omega, IsEditSeq.subst z u hs⟩
        · exact Or.inr (Or.inl ⟨m + 1, by omega, IsEditSeq.subst z u hs⟩)
        · exact Or.inr (Or.inr ⟨m + 1, by omega, IsEditSeq.subst z u hs⟩)
  | insert u h ih =>
    rename_i a₀ b₀ n₀
    intro a x b y ha hb
    cases b with
    | nil =>
      simp at hb
      obtain ⟨huy, hb₀⟩ := hb
      subst hb₀
      subst ha
      have hn := editSeq_nil_right_cost h
      exact Or.inr (Or.inl ⟨n₀, by omega, h⟩)
    | cons w b' =>
      simp at hb
      obtain ⟨huw, hb₀⟩ := hb
      subst huw
      subst hb₀
      rcases ih a x b' y ha rfl with ⟨m, hm, hs⟩ | ⟨m, hm, hs⟩ | ⟨m, hm, hs⟩
      · exact Or.inl ⟨m + 1, by omega, IsEditSeq.insert u hs⟩
      · exact Or.inr (Or.inl ⟨m + 1, by omega, IsEditSeq.insert u hs⟩)
      · exact Or.inr (Or.inr ⟨m + 1, by omega, IsEditSeq.insert u hs⟩)
  | delete z h ih =>
    rename_i a₀ b₀ n₀
    intro a x b y ha hb
    cases a with
    | nil =>
      simp at ha
      obtain ⟨hzx, ha₀⟩ := ha
      subst ha₀
      subst hb
      exact Or.inl ⟨n₀, by omega, h⟩
    | cons v a' =>
      simp at ha
      obtain ⟨hzv, ha₀⟩ := ha
      subst hzv
      subst ha₀
      rcases ih a' x b y rfl hb with ⟨m, hm, hs⟩ | ⟨m, hm, hs⟩ | ⟨m, hm, hs⟩
      · exact Or.inl ⟨m + 1, by omega, IsEditSeq.delete z hs⟩
      · exact Or.inr (Or.inl ⟨m + 1, by omega, IsEditSeq.delete z hs⟩)
      · exact Or.inr (Or.inr ⟨m + 1, by omega, IsEditSeq.delete z hs⟩)

/-- Matching last characters align for free in the reference distance. -/
theorem levRef_snoc_snoc_eq (a b : List Char) (x : Char) :
    levRef (a ++ [x]) (b ++ [x]) = levRef a b := by
  apply le_antisymm
  · have h := editSeq_snoc_both x x (levRef_achieves a b)
    rw [if_pos rfl, Nat.add_zero] at h
    exact levRef_min h
  · have h := levRef_achieves (a ++ [x]) (b ++ [x])
    rcases editSeq_snoc_inv h a x b x rfl rfl with ⟨m, hm, hs⟩ | ⟨m, hm, hs⟩ | ⟨m, hm, hs⟩
    · obtain ⟨m', hm', hs'⟩ := editSeq_unsnoc_right hs b x rfl
      have := levRef_min hs'
      omega
    · obtain ⟨m', hm', hs'⟩ := editSeq_unsnoc_left hs a x rfl
      have := levRef_min hs'
      omega
    · rw [if_pos rfl] at hm
      have := levRef_min hs
      omega

/-- The reference distance satisfies the code's three-way minimum
recurrence on the last characters, when those characters differ. -/
theorem levRef_snoc_snoc_ne (a b : List Char) (x y : Char) (hxy : x ≠ y) :
    levRef (a ++ [x]) (b ++ [y]) =
      min (levRef a (b ++ [y]) + 1) (min (levRef (a ++ [x]) b + 1) (levRef a b + 1)) := by
  apply le_antisymm
  · apply le_min
    · have h := editSeq_snoc_left x (levRef_achieves a (b ++ [y]))
      exact levRef_min h
    · apply le_min
      · have h := editSeq_snoc_right y (levRef_achieves (a ++ [x]) b)
        exact levRef_min h
      · have h := editSeq_snoc_both x y (levRef_achieves a b)
        rw [if_neg hxy] at h
        exact levRef_min h
  · have h := levRef_achieves (a ++ [x]) (b ++ [y])
    rcases editSeq_snoc_inv h a x b y rfl rfl with ⟨m, hm, hs⟩ | ⟨m, hm, hs⟩ | ⟨m, hm, hs⟩
    · have h1 := levRef_min hs
      have h2 := min3_le_first (levRef a (b ++ [y]) + 1) (levRef (a ++ [x]) b + 1)
        (levRef a b + 1)
      omega
    · have h1 := levRef_min hs
      have h2 := min3_le_second (levRef a (b ++ [y]) + 1) (levRef (a ++ [x]) b + 1)
        (levRef a b + 1)
      omega
    · rw [if_neg hxy] at hm
      have h1 := levRef_min hs
      have h2 := min3_le_third (levRef a (b ++ [y]) + 1) (levRef (a ++ [x]) b + 1)
        (levRef a b + 1)
      omega

theorem mat_zero_left (s1 s2 : List Char) (j : Nat) : mat s1 s2 0 j = j := by rw [mat]

theorem mat_succ_zero (s1 s2 : List Char) (i : Nat) : mat s1 s2 (i + 1) 0 = i + 1 := by rw [mat]

theorem mat_succ_succ (s1 s2 : List Char) (i j : Nat) :
    mat s1 s2 (i + 1) (j + 1) =
      if s1[i]? = s2[j]? then mat s1 s2 i j
      else min (mat s1 s2 i (j + 1) + 1) (min (mat s1 s2 (i + 1) j + 1) (mat s1 s2 i j + 1)) := by
  rw [mat]

/-- The DP matrix computes the reference distance of the prefixes. -/
theorem mat_eq_levRef (s1 s2 : List Char) :
    ∀ (N i j : Nat), i + j ≤ N → i ≤ s1.length → j ≤ s2.length →
      mat s1 s2 i j = levRef (s1.take i) (s2.take j) := by
  intro N
  induction N with
  | zero =>
    intro i j hN hi hj
    have hi0 : i = 0 := by omega
    have hj0 : j = 0 := by omega
    subst hi0; subst hj0
    rw [mat_zero_left]
    rw [show s1.take 0 = [] from rfl, show s2.take 0 = [] from rfl, levRef_nil_left]
    rfl
  | succ N ih =>
    intro i j hN hi hj
    match i, j with
    | 0, j =>
      rw [mat_zero_left, show s1.take 0 = [] from rfl, levRef_nil_left, List.length_take]
      omega
    | i + 1, 0 =>
      rw [mat_succ_zero, show s2.take 0 = [] from rfl, levRef_nil_right, List.length_take]
      omega
    | i + 1, j + 1 =>
      have hi1 : i < s1.length := by omega
      have hj1 : j < s2.length := by omega
      have hc1 : s1[i]? = some s1[i] := List.getElem?_eq_getElem hi1
      have hc2 : s2[j]? = some s2[j] := List.getElem?_eq_getElem hj1
      have ht1 : s1.take (i + 1) = s1.take i ++ [s1[i]] := by
        rw [List.take_succ, hc1]; rfl
      have ht2 : s2.take (j + 1) = s2.take j ++ [s2[j]] := by
        rw [List.take_succ, hc2]; rfl
      rw [mat_succ_succ, hc1, hc2, ht1, ht2]
      by_cases hc : s1[i] = s2[j]
      · rw [if_pos (by rw [hc]), hc, levRef_snoc_snoc_eq]
        exact ih i j (by omega) (by omega) (by omega)
      · rw [if_neg (by simpa using hc)]
        rw [levRef_snoc_snoc_ne _ _ _ _ hc]
        rw [← ht1, ← ht2]
        rw [ih i (j + 1) (by omega) (by omega) (by omega),
            ih (i + 1) j (by omega) (by omega) (by omega),
            ih i j (by omega) (by omega) (by omega)]

/-- `calculateEditDistance` computes the reference Levenshtein distance. -/
theorem calculateEditDistance_eq_levRef (str1 str2 : String) :
    calculateEditDistance str1 str2 = levRef str1.data str2.data := by
  unfold calculateEditDistance
  rw [mat_eq_levRef str1.data str2.data (str1.data.length + str2.data.length)
      str1.data.length str2.data.length le_rfl le_rfl le_rfl]
  rw [List.take_length, List.take_length]

/-- `calculateEditDistance` is the minimum number of single-character
insertions, deletions and substitutions rewriting one string to the other. -/
theorem calculateEditDistance_minimal (str1 str2 : String) :
    IsEditSeq str1.data str2.data (calculateEditDistance str1 str2) ∧
      ∀ n, IsEditSeq str1.data str2.data n → calculateEditDistance str1 str2 ≤ n := by
  rw [calculateEditDistance_eq_levRef]
  exact ⟨levRef_achieves _ _, fun n h => levRef_min h⟩

/-! ## Suggestion ranking: `SpellCheckerService.getSuggestions`

The source maps every raw candidate to `(suggestion, distance)`, sorts
ascending by distance with the (stable) `Array.prototype.sort`, then
walks the sorted list keeping the first occurrence of each surface form
until five suggestions are collected. -/

/-- Stable insertion keeping ascending `distance` order: a new element
goes after every earlier element of strictly smaller distance and before
the first element of greater-or-equal distance seen from its position,
matching a stable sort with comparator `a.distance - b.distance`. -/
def insertRanked (p : String × Nat) : List (String × Nat) → List (String × Nat)
  | [] => [p]
  | q :: rest => if p.2 ≤ q.2 then p :: q :: rest else q :: insertRanked p rest

/-- Stable sort by ascending `distance` (insertion sort). -/
def sortRanked : List (String × Nat) → List (String × Nat)
  | [] => []
  | p :: rest => insertRanked p (sortRanked rest)

/-- The `topSuggestions` selection loop: walk the ranked list, skip
surface forms already in `usedSuggestions`, stop at five. `k` is the
remaining capacity (`5 - topSuggestions.length`). -/
def selectTop : Nat → List String → List (String × Nat) → List String
  | _, _, [] => []
  | 0, _, _ :: _ => []
  | k + 1, used, p :: rest =>
    if p.1 ∈ used then selectTop (k + 1) used rest
    else p.1 :: selectTop k (p.1 :: used) rest

/-- The ranking pipeline of `getSuggestions` applied to the raw
candidate list returned by the worker: empty input short-circuits,
otherwise rank by edit distance against the lowercased trimmed query,
sort ascending, deduplicate by surface form and truncate to five. -/
def rankSuggestions (word : String) (allSuggestions : List String) : List String :=
  let cacheKeyWord := jsToLower (jsTrim word)
  if allSuggestions.length = 0 then []
  else
    let ranked := allSuggestions.map fun sg => (sg, calculateEditDistance cacheKeyWord (jsToLower sg))
    let sorted := sortRanked ranked
    selectTop 5 [] sorted

theorem mem_insertRanked {p q : String × Nat} {l : List (String × Nat)} :
    q ∈ insertRanked p l ↔ q = p ∨ q ∈ l := by
  induction l with
  | nil => simp [insertRanked]
  | cons r rest ih =>
    by_cases h : p.2 ≤ r.2
    · simp [insertRanked, h]
    · simp [insertRanked, h, ih]
      tauto

theorem mem_sortRanked {q : String × Nat} {l : List (String × Nat)} :
    q ∈ sortRanked l ↔ q ∈ l := by
  induction l with
  | nil => simp [sortRanked]
  | cons p rest ih =>
    simp [sortRanked, mem_insertRanked, ih]

theorem insertRanked_sorted (p : String × Nat) (l : List (String × Nat))
    (h : l.Pairwise fun a b => a.2 ≤ b.2) :
    (insertRanked p l).Pairwise fun a b => a.2 ≤ b.2 := by
  induction l with
  | nil => simp [insertRanked]
  | cons q rest ih =>
    rw [List.pairwise_cons] at h
    obtain ⟨hq, hrest⟩ := h
    by_cases hpq : p.2 ≤ q.2
    · rw [insertRanked, if_pos hpq]
      refine List.Pairwise.cons ?_ (List.Pairwise.cons hq hrest)
      intro r hr
      rcases List.mem_cons.mp hr with rfl | hr'
      · exact hpq
      · exact le_trans hpq (hq r hr')
    · rw [insertRanked, if_neg hpq]
      refine List.Pairwise.cons ?_ (ih hrest)
      intro r hr
      rw [mem_insertRanked] at hr
      rcases hr with rfl | hr
      · omega
      · exact hq r hr

theorem sortRanked_sorted (l : List (String × Nat)) :
    (sortRanked l).Pairwise fun a b => a.2 ≤ b.2 := by
  induction l with
  | nil => simp [sortRanked]
  | cons p rest ih => exact insertRanked_sorted p (sortRanked rest) ih

theorem selectTop_length (k : Nat) (used : List String) (l : List (String × Nat)) :
    (selectTop k used l).length ≤ k := by
  induction l generalizing k used with
  | nil => simp [selectTop]
  | cons p rest ih =>
    match k with
    | 0 => simp [selectTop]
    | k + 1 =>
      rw [selectTop]
      by_cases h : p.1 ∈ used
      · rw [if_pos h]
        exact ih (k + 1) used
      · rw [if_neg h]
        simpa using Nat.succ_le_succ (ih k (p.1 :: used))

theorem selectTop_nodup (k : Nat) (used : List String) (l : List (String × Nat)) :
    (selectTop k used l).Nodup ∧ ∀ s ∈ selectTop k used l, s ∉ used := by
  induction l generalizing k used with
  | nil => simp [selectTop]
  | cons p rest ih =>
    match k with
    | 0 => simp [selectTop]
    | k + 1 =>
      rw [selectTop]
      by_cases h : p.1 ∈ used
      · rw [if_pos h]
        exact ih (k + 1) used
      · rw [if_neg h]
        obtain ⟨hnd, hused⟩ := ih k (p.1 :: used)
        refine ⟨List.Nodup.cons ?_ hnd, ?_⟩
        · intro hmem
          exact hused p.1 hmem (by simp)
        · intro s hs hsused
          rcases List.mem_cons.mp hs with rfl | hs'
          · exact h hsused
          · exact hused s hs' (by simp [hsused])

theorem selectTop_sublist (k : Nat) (used : List String) (l : List (String × Nat)) :
    ∃ l', List.Sublist l' l ∧ selectTop k used l = l'.map Prod.fst := by
  induction l generalizing k used with
  | nil => exact ⟨[], by simp, by simp [selectTop]⟩
  | cons p rest ih =>
    match k with
    | 0 => exact ⟨[], by simp, by simp [selectTop]⟩
    | k + 1 =>
      rw [selectTop]
      by_cases h : p.1 ∈ used
      · rw [if_pos h]
        obtain ⟨l', hsub, heq⟩ := ih (k + 1) used
        exact ⟨l', hsub.cons p, heq⟩
      · rw [if_neg h]
        obtain ⟨l', hsub, heq⟩ := ih k (p.1 :: used)
        exact ⟨p :: l', hsub.cons₂ p, by simp [heq]⟩

/-- C6: for every word and every list of raw candidate suggestions
returned by the worker, the ranked list produced by
`SpellCheckerService.getSuggestions` is sorted by non-decreasing
Levenshtein distance between the lowercased query and each lowercased
candidate, contains no duplicate surface forms, and has length at most
five; the empty candidate list yields the empty list (a normal value,
not an error), and `calculateEditDistance` is the reference Levenshtein
distance: the minimum number of single-character insertions, deletions
and substitutions. -/
theorem claim6_suggestion_ranking :
    (∀ (word : String) (raw : List String),
      (rankSuggestions word raw).Chain' (fun a b =>
          calculateEditDistance (jsToLower (jsTrim word)) (jsToLower a) ≤
            calculateEditDistance (jsToLower (jsTrim word)) (jsToLower b)) ∧
      (rankSuggestions word raw).Nodup ∧ (rankSuggestions word raw).length ≤ 5) ∧
    (∀ word : String, rankSuggestions word [] = []) ∧
    (∀ str1 str2 : String,
      IsEditSeq str1.data str2.data (calculateEditDistance str1 str2) ∧
        ∀ n, IsEditSeq str1.data str2.data n → calculateEditDistance str1 str2 ≤ n) := by
  refine ⟨?_, fun word => by simp [rankSuggestions], calculateEditDistance_minimal⟩
  intro word raw
  by_cases hraw : raw.length = 0
  · simp [rankSuggestions, hraw]
  · have hout : rankSuggestions word raw =
        selectTop 5 [] (sortRanked (raw.map fun sg =>
          (sg, calculateEditDistance (jsToLower (jsTrim word)) (jsToLower sg)))) := by
      simp [rankSuggestions, hraw]
    obtain ⟨l', hsub, heq⟩ := selectTop_sublist 5 []
      (sortRanked (raw.map fun sg =>
        (sg, calculateEditDistance (jsToLower (jsTrim word)) (jsToLower sg))))
    have hmemval : ∀ q ∈ sortRanked (raw.map fun sg =>
        (sg, calculateEditDistance (jsToLower (jsTrim word)) (jsToLower sg))),
        q.2 = calculateEditDistance (jsToLower (jsTrim word)) (jsToLower q.1) := by
      intro q hq
      rw [mem_sortRanked] at hq
      obtain ⟨sg, hsg, rfl⟩ := List.mem_map.mp hq
      rfl
    have hpair : l'.Pairwise fun a b => a.2 ≤ b.2 :=
      (sortRanked_sorted _).sublist hsub
    have hpair2 : l'.Pairwise fun a b =>
        calculateEditDistance (jsToLower (jsTrim word)) (jsToLower a.1) ≤
          calculateEditDistance (jsToLower (jsTrim word)) (jsToLower b.1) := by
      refine hpair.imp_of_mem fun ha hb hr => ?_
      rw [← hmemval _ (hsub.subset ha), ← hmemval _ (hsub.subset hb)]
      exact hr
    refine ⟨?_, ?_, ?_⟩
    · rw [hout, heq]
      have hpm : (l'.map Prod.fst).Pairwise (fun a b =>
          calculateEditDistance (jsToLower (jsTrim word)) (jsToLower a) ≤
            calculateEditDistance (jsToLower (jsTrim word)) (jsToLower b)) :=
        (List.pairwise_map).mpr hpair2
      exact hpm.chain'
    · rw [hout]
      exact (selectTop_nodup 5 [] _).1
    · rw [hout]
      exact selectTop_length 5 [] _

/-- Witness for C6: the minimality clause applied at a concrete edit
script (`cat` to `cart` by one insertion). -/
theorem claim6_suggestion_ranking_witness :
    IsEditSeq "cat".data "cart".data 1 ∧ calculateEditDistance "cat" "cart" ≤ 1 := by
  have hd1 : "cat".data = ['c', 'a', 't'] := by decide
  have hd2 : "cart".data = ['c', 'a', 'r', 't'] := by decide
  have h : IsEditSeq "cat".data "cart".data 1 := by
    rw [hd1, hd2]
    exact IsEditSeq.copy _ (IsEditSeq.copy _ (IsEditSeq.insert _ (IsEditSeq.copy _ IsEditSeq.nil)))
  exact ⟨h, (claim6_suggestion_ranking.2.2 "cat" "cart").2 1 h⟩

/-! ## Word extractor: `utils/wordExtractor.ts`

`extractWords` runs the JS regex `\b[\w'-]+\b` with the global `exec`
loop over each text node and keeps a match only when `shouldCheckWord`
accepts it and the character immediately after the match (within the
same text run) is in the trailing-boundary class `[\s\n.,!?;:'")\]}]`.
The regex semantics are embedded explicitly: a match starts at a word
boundary on a token-class character, extends greedily through the
token class, and backtracks to the longest end position that is again a
word boundary; the search scans start positions left to right and
resumes after each match (`lastIndex`). -/

/-- JS `\w`: ASCII letters, digits and underscore. -/
def isWordChar (c : Char) : Bool := c.isAlphanum || c = '_'

/-- The token class `[\w'-]` of the extraction regex (39 is the apostrophe). -/
def isTokenChar (c : Char) : Bool := isWordChar c || c = Char.ofNat 39 || c = '-'

/-- Whether the character at index `i` is a word character (out of range: no). -/
def wordCharAt (t : List Char) (i : Nat) : Bool :=
  match t[i]? with
  | some c => isWordChar c
  | none => false

/-- JS regex word boundary `\b` at position `i`. -/
def boundaryAt (t : List Char) (i : Nat) : Bool :=
  match i with
  | 0 => wordCharAt t 0
  | j + 1 => wordCharAt t j != wordCharAt t (j + 1)

/-- Length of the maximal run of token-class characters starting at `s`. -/
def maxRun (t : List Char) : Nat → Nat → Nat
  | 0, _ => 0
  | fuel + 1, s =>
    match t[s]? with
    | some c => if isTokenChar c then maxRun t fuel (s + 1) + 1 else 0
    | none => 0

/-- Backtracking of the trailing `\b`: the largest `1 ≤ k ≤ run` such
that a word boundary holds at `s + k`. -/
def bestK (t : List Char) (s : Nat) : Nat → Option Nat
  | 0 => none
  | k + 1 => if boundaryAt t (s + k + 1) then some (k + 1) else bestK t s k

/-- Leftmost match of `\b[\w'-]+\b` starting at or after position `s`,
returned as `(start, length)`. -/
def nextMatchFrom (t : List Char) : Nat → Nat → Option (Nat × Nat)
  | 0, _ => none
  | fuel + 1, s =>
    match t[s]? with
    | none => none
    | some c =>
      if boundaryAt t s && isTokenChar c then
        match bestK t s (maxRun t (t.length + 1) s) with
        | some k => some (s, k)
        | none => nextMatchFrom t fuel (s + 1)
      else nextMatchFrom t fuel (s + 1)

def nextMatch (t : List Char) (s : Nat) : Option (Nat × Nat) :=
  nextMatchFrom t (t.length + 1) s

/-- All matches of the global regex from position `s` on (the repeated
`exec` calls, each resuming at the previous match's end). -/
def tokenList (t : List Char) : Nat → Nat → List (Nat × Nat)
  | 0, _ => []
  | fuel + 1, s =>
    match nextMatch t s with
    | none => []
    | some (ms, k) => (ms, k) :: tokenList t fuel (ms + k)

/-- Characters kept by the strip regex (complement of `[^\w']`). -/
def isKeepChar (c : Char) : Bool := isWordChar c || c = Char.ofNat 39

/-- `replace(/^[^\w']+|[^\w']+$/g, '')`: strip leading and trailing
non-word, non-apostrophe characters. -/
def stripEnds (l : List Char) : List Char :=
  ((l.dropWhile fun c => !isKeepChar c).reverse.dropWhile fun c => !isKeepChar c).reverse

/-- `normalizeWord`: lowercase, then strip leading/trailing punctuation. -/
def normalizeWord (word : String) : String :=
  ⟨stripEnds (jsToLower word).data⟩

/-- `shouldCheckWord`: the normalised word must have at least two
characters and must not be purely numeric. -/
def shouldCheckWord (word : String) : Bool :=
  let normalized := normalizeWord word
  if normalized.length < 2 then false
  else if normalized.data.all Char.isDigit then false
  else true

/-- The trailing-boundary class `[\s\n.,!?;:'")\]}]` (39 apostrophe,
34 double quote, 125 closing brace). -/
def isTrailingBoundaryChar (c : Char) : Bool :=
  c.isWhitespace || c = '.' || c = ',' || c = '!' || c = '?' || c = ';' || c = ':' ||
    c = Char.ofNat 39 || c = Char.ofNat 34 || c = ')' || c = ']' || c = Char.ofNat 125

/-- `indexAfterWord < text.length && boundary-class test` from the
source; an index at or past the end of the text run yields `false`. -/
def hasTrailingBoundaryAt (t : List Char) (e : Nat) : Bool :=
  match t[e]? with
  | some c => isTrailingBoundaryChar c
  | none => false

/-- A word found in the document with its position (`from`/`to`). -/
structure WordPosition where
  word : String
  from_ : Nat
  to_ : Nat
deriving DecidableEq, Repr

/-- The `while ((match = wordBoundaryRegex.exec(text)))` loop of
`extractWords` over one text node starting at document position `pos`:
each match is kept when `shouldCheckWord` accepts it and a trailing
boundary character follows, with the pushed word stripped of
leading/trailing punctuation (case preserved). -/
def scanText (t : List Char) (pos : Nat) : Nat → Nat → List WordPosition
  | 0, _ => []
  | fuel + 1, lastIndex =>
    match nextMatch t lastIndex with
    | none => []
    | some (ms, k) =>
      (if shouldCheckWord ⟨(t.drop ms).take k⟩ && hasTrailingBoundaryAt t (ms + k) then
        [⟨⟨stripEnds ((t.drop ms).take k)⟩, pos + ms, pos + ms + k⟩]
      else []) ++ scanText t pos fuel (ms + k)

/-- A ProseMirror node: a text leaf or an element node with a type name
and children. -/
inductive PMNode where
  | text (s : String)
  | node (typeName : String) (children : List PMNode)

mutual

/-- ProseMirror `nodeSize`: text nodes occupy their length, element
nodes two tokens plus their content. -/
def nodeSize : PMNode → Nat
  | .text s => s.data.length
  | .node _ children => 2 + nodeListSize children

def nodeListSize : List PMNode → Nat
  | [] => 0
  | n :: rest => nodeSize n + nodeListSize rest

end

mutual

/-- The `doc.descendants` traversal of `extractWords`: code blocks and
code nodes are skipped without descending, text nodes are scanned. -/
def extractFromNode : PMNode → Nat → List WordPosition
  | .text s, pos => scanText s.data pos (s.data.length + 1) 0
  | .node typeName children, pos =>
    if typeName = "codeBlock" ∨ typeName = "code" then []
    else extractFromList children (pos + 1)

def extractFromList : List PMNode → Nat → List WordPosition
  | [], _ => []
  | n :: rest, pos => extractFromNode n pos ++ extractFromList rest (pos + nodeSize n)

end

/-- `extractWords(doc)`: traverse the document's children in order
(positions of the document's own content start at 0). -/
def extractWords : PMNode → List WordPosition
  | .text _ => []
  | .node _ children => extractFromList children 0

/-- C9: `extractWords` returns, in document order, exactly the regex
tokens that pass the minimum-length/non-numeric filter and are followed
within the same text run by a trailing boundary character; a token
ending at the end of its text run is excluded (no character follows),
and `codeBlock`/`code` subtrees yield no words.  On the document text
`"helllo world "` it returns exactly the two words `helllo` and
`world`. -/
theorem claim9_extract_words :
    (extractWords (.node "doc" [.node "paragraph" [.text "helllo world "]]) =
      [⟨"helllo", 1, 7⟩, ⟨"world", 8, 13⟩]) ∧
    (∀ (t : List Char) (pos fuel lastIndex : Nat),
      scanText t pos fuel lastIndex =
        (tokenList t fuel lastIndex).filterMap fun m =>
          if shouldCheckWord ⟨(t.drop m.1).take m.2⟩ && hasTrailingBoundaryAt t (m.1 + m.2) then
            some ⟨⟨stripEnds ((t.drop m.1).take m.2)⟩, pos + m.1, pos + m.1 + m.2⟩
          else none) ∧
    (∀ (children : List PMNode) (pos : Nat),
      extractFromNode (.node "codeBlock" children) pos = [] ∧
      extractFromNode (.node "code" children) pos = []) ∧
    (∀ (t : List Char) (e : Nat), t.length ≤ e → hasTrailingBoundaryAt t e = false) := by
  refine ⟨by decide, ?_, ?_, ?_⟩
  · intro t pos fuel
    induction fuel with
    | zero => intro lastIndex; rfl
    | succ fuel ih =>
      intro lastIndex
      rw [scanText, tokenList]
      cases hm : nextMatch t lastIndex with
      | none => rfl
      | some m =>
        obtain ⟨ms, k⟩ := m
        rw [List.filterMap_cons]
        dsimp only
        by_cases hcond :
            (shouldCheckWord ⟨(t.drop ms).take k⟩ && hasTrailingBoundaryAt t (ms + k)) = true
        · rw [if_pos hcond, if_pos hcond, ih]
          rfl
        · rw [if_neg hcond, if_neg hcond, ih]
          rfl
  · intro children pos
    constructor
    · rw [extractFromNode, if_pos (Or.inl rfl)]
    · rw [extractFromNode, if_pos (Or.inr rfl)]
  · intro t e he
    unfold hasTrailingBoundaryAt
    rw [List.getElem?_eq_none he]

/-- Witness for C9: the end-of-run clause applied at the text
`"world"` (length 5) and index 5. -/
theorem claim9_extract_words_witness :
    "world".data.length ≤ 5 ∧ hasTrailingBoundaryAt "world".data 5 = false :=
  ⟨by decide, claim9_extract_words.2.2.2 "world".data 5 (by decide)⟩

/-! ## The spellcheck worker (`spellcheck-worker.js`)

The dictionary engine (`spellchecker.correct`) is abstracted as a
`String → Bool` oracle; the worker's `checkWord` logic around it is
embedded verbatim. -/

/-- The worker's `checkWord` with a loaded dictionary: trim; words
shorter than two characters are correct; check the original case first,
then the lowercased form when it differs; correct iff either passes. -/
def workerCheckWord (engine : String → Bool) (word : String) : Bool :=
  let trimmed := jsTrim word
  if trimmed.length < 2 then true
  else if engine trimmed then true
  else
    let lowercase := jsToLower trimmed
    if lowercase ≠ trimmed then engine lowercase else false

/-- The worker's `CHECK_WORDS` handler: run `checkWord` on each word,
keyed by the word itself. -/
def workerCheckWords (engine : String → Bool) (words : List String) : List (String × Bool) :=
  words.map fun w => (w, workerCheckWord engine w)

/-- An English dictionary engine in which the capitalized weekday is
present and its lowercased form is not. -/
def mondayEngine : String → Bool := fun w => decide (w = "Monday")

/-! ## WorkerManager (`WorkerManager.ts`)

State of the request/response layer: the (optional) worker reference,
the id the next created worker would get, the pending-request table
(request ids), the request counter, and a log of promise rejections. -/

inductive WMErrorKind where
  | workerError (msg : String)
  | timeout
  | cancelled
  | terminated
deriving DecidableEq, Repr

structure WMState where
  worker : Option Nat
  nextWorkerId : Nat
  pendingRequests : List Nat
  requestCounter : Nat
  rejections : List (Nat × WMErrorKind)
deriving DecidableEq, Repr

/-- `isReady()`: the worker reference is non-null. -/
def WMState.isReady (s : WMState) : Bool := s.worker.isSome

/-- `ensureWorker()`: reuse the existing worker, or create a fresh one. -/
def WMState.ensureWorker (s : WMState) : Nat × WMState :=
  match s.worker with
  | some w => (w, s)
  | none => (s.nextWorkerId,
      { s with worker := some s.nextWorkerId, nextWorkerId := s.nextWorkerId + 1 })

/-- `handleError`: reject every pending request with a worker error and
clear the table.  The worker reference is left untouched. -/
def WMState.handleError (msg : String) (s : WMState) : WMState :=
  { s with
    rejections :=
      s.rejections ++ s.pendingRequests.map fun rid => (rid, WMErrorKind.workerError msg),
    pendingRequests := [] }

/-- `terminate()`: reject all pending, clear the table, null the worker. -/
def WMState.terminate (s : WMState) : WMState :=
  match s.worker with
  | some _ =>
    { s with
      rejections :=
        s.rejections ++ s.pendingRequests.map fun rid => (rid, WMErrorKind.terminated),
      pendingRequests := [],
      worker := none }
  | none => s

/-- `cancelAllPendingRequests()`: reject all pending with a cancel
error and clear the table. -/
def WMState.cancelAllPendingRequests (s : WMState) : WMState :=
  { s with
    rejections :=
      s.rejections ++ s.pendingRequests.map fun rid => (rid, WMErrorKind.cancelled),
    pendingRequests := [] }

/-- `sendMessage`: ensure the worker exists, allocate a request id and
store a pending entry. -/
def WMState.sendMessage (s : WMState) : Nat × WMState :=
  let ws := s.ensureWorker
  let rid := ws.2.requestCounter + 1
  (rid, { ws.2 with requestCounter := rid, pendingRequests := ws.2.pendingRequests ++ [rid] })

/-- C7 as stated is false on the code: after a fatal worker error the
pending table is emptied and every pending promise rejected, but
`isReady()` still returns `true` (the worker reference is not cleared)
and the next `ensureWorker` reuses worker 1 instead of recreating the
context. -/
theorem claim7_counterexample :
    (WMState.handleError "boom" ⟨some 1, 2, [7, 8], 8, []⟩).pendingRequests = [] ∧
    (WMState.handleError "boom" ⟨some 1, 2, [7, 8], 8, []⟩).rejections =
      [(7, WMErrorKind.workerError "boom"), (8, WMErrorKind.workerError "boom")] ∧
    (WMState.handleError "boom" ⟨some 1, 2, [7, 8], 8, []⟩).isReady = true ∧
    ((WMState.handleError "boom" ⟨some 1, 2, [7, 8], 8, []⟩).ensureWorker).1 = 1 := by
  refine ⟨rfl, ?_, rfl, rfl⟩
  simp [WMState.handleError]

/-- C7 amended: `handleError` rejects every pending request with a
worker error and empties the pending table, but the worker reference
(and hence `isReady` and the worker used by the next call) is
unchanged; only `terminate()` clears the reference so that a later
call would create a fresh worker. -/
theorem claim7_amended (msg : String) (s : WMState) :
    (WMState.handleError msg s).pendingRequests = [] ∧
    (WMState.handleError msg s).rejections =
      s.rejections ++ s.pendingRequests.map (fun rid => (rid, WMErrorKind.workerError msg)) ∧
    (WMState.handleError msg s).worker = s.worker ∧
    (WMState.handleError msg s).isReady = s.isReady ∧
    ((WMState.handleError msg s).ensureWorker).1 = (s.ensureWorker).1 ∧
    (WMState.terminate s).worker = none := by
  refine ⟨rfl, rfl, rfl, rfl, ?_, ?_⟩
  · cases hw : s.worker <;> simp [WMState.handleError, WMState.ensureWorker, hw]
  · cases hw : s.worker <;> simp [WMState.terminate, hw]

/-! ## The ProseMirror plugin (`SpellCheckerPlugin.ts`)

`DecorationSetM` models a decoration set as a list of spans; a
transaction carries the four metadata fields the plugin reads plus the
decoration mapping induced by its document changes (`tr.mapping`; the
identity for transactions that do not change the document). -/

abbrev DecorationSetM := List (Nat × Nat)

structure PluginTransaction where
  updateDecorationsMeta : Bool
  decorationsMeta : Option DecorationSetM
  generationMeta : Option Nat
  triggerScanMeta : Bool
  mapDecorations : DecorationSetM → DecorationSetM

structure SpellCheckerPluginState where
  decorations : DecorationSetM
  shouldRescan : Bool
  generation : Nat
deriving DecidableEq, Repr

/-- The plugin's `state.init`. -/
def pluginInit (currentGeneration : Nat) : SpellCheckerPluginState :=
  ⟨[], false, currentGeneration⟩

/-- The plugin's `state.apply` step: when disabled everything is
cleared; otherwise existing decorations are mapped through the
transaction, and a `spellcheck-decorations` payload is applied only if
its attached generation is absent or equals the current generation. -/
def pluginApply (tr : PluginTransaction) (value : SpellCheckerPluginState)
    (enabled : Bool) (currentGeneration : Nat) : SpellCheckerPluginState :=
  if !enabled then ⟨[], false, currentGeneration⟩
  else
    let mapped := tr.mapDecorations value.decorations
    let decorations :=
      if tr.updateDecorationsMeta then
        match tr.decorationsMeta with
        | some newDecorations =>
          match tr.generationMeta with
          | none => newDecorations
          | some g => if g = currentGeneration then newDecorations else mapped
        | none => mapped
      else mapped
    ⟨decorations, tr.triggerScanMeta, currentGeneration⟩

/-- The debounce timeout callback of `scheduleScan`: abort when the
generation changed before the scan starts, when disabled, when the
generation changed across the asynchronous scan, when disabled after
it, or when the document size changed; otherwise dispatch a
decoration-update transaction tagged with the captured generation. -/
def scanTimeoutCallback (scanGeneration generationAtFire : Nat) (enabledAtFire : Bool)
    (scanResult : DecorationSetM) (generationAfterScan : Nat) (enabledAfterScan : Bool)
    (docSizeChanged : Bool) : Option PluginTransaction :=
  if generationAtFire ≠ scanGeneration then none
  else if !enabledAtFire then none
  else if generationAfterScan ≠ scanGeneration then none
  else if !enabledAfterScan then none
  else if docSizeChanged then none
  else some ⟨true, some scanResult, some scanGeneration, false, id⟩

/-- C1: for a scan that captured generation `g`, if the current
generation differs from `g` then (i) the debounce callback aborts when
it fires, (ii) it aborts after the asynchronous scan, (iii) the plugin's
`apply` ignores any transaction tagged with generation `g` (the state
keeps its mapped decorations), and in particular (iv) the scan's own
dispatch (which does not change the document, so its mapping is the
identity) leaves the committed decoration set unchanged. -/
theorem claim1_generation_guard (g current : Nat) (hne : current ≠ g) :
    (∀ (enabledAtFire : Bool) (res : DecorationSetM) (genAfter : Nat)
        (enabledAfter : Bool) (docChanged : Bool),
      scanTimeoutCallback g current enabledAtFire res genAfter enabledAfter docChanged = none) ∧
    (∀ (enabledAtFire : Bool) (res : DecorationSetM) (enabledAfter : Bool) (docChanged : Bool),
      scanTimeoutCallback g g enabledAtFire res current enabledAfter docChanged = none) ∧
    (∀ (tr : PluginTransaction) (value : SpellCheckerPluginState),
      tr.generationMeta = some g →
      pluginApply tr value true current =
        ⟨tr.mapDecorations value.decorations, tr.triggerScanMeta, current⟩) ∧
    (∀ (value : SpellCheckerPluginState) (res : DecorationSetM),
      (pluginApply ⟨true, some res, some g, false, id⟩ value true current).decorations =
        value.decorations) := by
  have hgc : ¬g = current := fun h => hne h.symm
  refine ⟨?_, ?_, ?_, ?_⟩
  · intro enabledAtFire res genAfter enabledAfter docChanged
    rw [scanTimeoutCallback, if_pos hne]
  · intro enabledAtFire res enabledAfter docChanged
    cases enabledAtFire <;> simp [scanTimeoutCallback, hne]
  · intro tr value h
    cases htr : tr.decorationsMeta <;>
      simp [pluginApply, h, htr, hgc]
  · intro value res
    simp [pluginApply, hgc]

/-- Witness for C1 at `g = 0`, current generation `1`. -/
theorem claim1_generation_guard_witness :
    (1 : Nat) ≠ 0 ∧
    scanTimeoutCallback 0 1 true [(1, 7)] 0 true false = none ∧
    scanTimeoutCallback 0 0 true [(1, 7)] 1 true false = none ∧
    (pluginApply ⟨true, some [(1, 7)], some 0, false, id⟩ ⟨[(3, 9)], false, 0⟩ true 1).decorations
      = [(3, 9)] := by
  have h := claim1_generation_guard 0 1 (by decide)
  exact ⟨by decide, h.1 true [(1, 7)] 0 true false, h.2.1 true [(1, 7)] true false,
    h.2.2.2 ⟨[(3, 9)], false, 0⟩ [(1, 7)]⟩

/-! ## SpellCheckerService (`SpellCheckerService.ts`)

The service is a state machine.  JS `Set` objects live in a heap
(`sets`, addressed by numeric ids) because `clearCache()` clears the
per-language `Map`s while in-flight continuations keep writing to the
`Set` objects they captured before the clear.  Each `await` of a
`WorkerManager` call is split into an issuing step (logged in
`workerCalls`, the protocol-call log at the `WorkerManager` API
boundary) and a delivery step taking the worker outcome. -/

inductive LanguageCode where
  | en
  | de
deriving DecidableEq, Repr

def MIN_WORD_LENGTH : Nat := 2

/-- One call made to the `WorkerManager` API. -/
inductive WorkerCall where
  | checkWordCall (word : String) (language : LanguageCode)
  | checkWordsCall (words : List String) (language : LanguageCode)
  | getSuggestionsCall (word : String) (language : LanguageCode)
deriving DecidableEq, Repr

/-- The data captured by the `then`/`catch` continuation of one
`workerManager.checkWord` call issued by `checkWord`: the promise
identity, the lowercase cache-key word, the `language:word` key and the
two `Set` objects (heap ids) captured before the `await`. -/
structure CheckContinuation where
  promiseId : Nat
  cacheKeyWord : String
  cacheKey : LanguageCode × String
  correctSetId : Nat
  misspelledSetId : Nat
deriving DecidableEq, Repr

structure ServiceState where
  sets : List (Nat × List String)
  nextSetId : Nat
  correctWordsCache : List (LanguageCode × Nat)
  misspelledWordsCache : List (LanguageCode × Nat)
  suggestionsCache : List ((LanguageCode × String) × List String)
  pendingChecks : List ((LanguageCode × String) × Nat)
  nextPromiseId : Nat
  workerCalls : List WorkerCall
  issuedChecks : List CheckContinuation
deriving DecidableEq, Repr

/-- A freshly constructed service. -/
def initialService : ServiceState := ⟨[], 0, [], [], [], [], 0, [], []⟩

/-- Contents of the heap `Set` with id `id` (empty when absent). -/
def setContents (s : ServiceState) (id : Nat) : List String :=
  (alookup s.sets id).getD []

/-- JS `Set.prototype.add` on the heap set `id`. -/
def addToSet (sets : List (Nat × List String)) (id : Nat) (w : String) :
    List (Nat × List String) :=
  sets.map fun e => (e.1, if e.1 = id then (if w ∈ e.2 then e.2 else e.2 ++ [w]) else e.2)

/-- JS `Set.prototype.delete` on the heap set `id`. -/
def removeFromSet (sets : List (Nat × List String)) (id : Nat) (w : String) :
    List (Nat × List String) :=
  sets.map fun e => (e.1, if e.1 = id then e.2.filter (fun v => decide (v ≠ w)) else e.2)

/-- Result of `getCorrectWordsCache`/`getMisspelledWordsCache`. -/
structure CacheFetch where
  setId : Nat
  cache : List (LanguageCode × Nat)
  sets : List (Nat × List String)
  nextId : Nat

/-- `getCorrectWordsCache`/`getMisspelledWordsCache`: look up the
per-language `Set`, allocating a fresh empty one on first use. -/
def getOrCreate (cache : List (LanguageCode × Nat)) (sets : List (Nat × List String))
    (nextId : Nat) (lang : LanguageCode) : CacheFetch :=
  match alookup cache lang with
  | some id => ⟨id, cache, sets, nextId⟩
  | none => ⟨nextId, ainsert cache lang nextId, ainsert sets nextId [], nextId + 1⟩

/-- The current correct-words set for a language (empty if absent). -/
def correctWordsOf (s : ServiceState) (language : LanguageCode) : List String :=
  match alookup s.correctWordsCache language with
  | some id => setContents s id
  | none => []

/-- The current misspelled-words set for a language (empty if absent). -/
def misspelledWordsOf (s : ServiceState) (language : LanguageCode) : List String :=
  match alookup s.misspelledWordsCache language with
  | some id => setContents s id
  | none => []

/-- What a fulfilled or rejected `checkWord` promise looks like to the
caller before resolution: either already resolved (short word, cache
hit) or pending with a promise identity. -/
inductive CheckResult where
  | resolved (value : Bool)
  | pending (promiseId : Nat)
deriving DecidableEq, Repr

/-- `SpellCheckerService.checkWord` up to its `await`: trim and
lowercase; short words resolve `true`; consult the two per-language
sets (allocating them on first use); return the stored promise when a
check for the same key is pending; otherwise issue one
`workerManager.checkWord(trimmed, language)` call, register the pending
promise under `language:cacheKeyWord` and record the continuation with
the two captured `Set` ids. -/
def ServiceState.checkWord (s : ServiceState) (word : String) (language : LanguageCode) :
    CheckResult × ServiceState :=
  let trimmed := jsTrim word
  let cacheKeyWord := jsToLower trimmed
  if trimmed.length < MIN_WORD_LENGTH then (.resolved true, s)
  else
    let g1 := getOrCreate s.correctWordsCache s.sets s.nextSetId language
    let g2 := getOrCreate s.misspelledWordsCache g1.sets g1.nextId language
    let s1 : ServiceState :=
      { s with correctWordsCache := g1.cache, misspelledWordsCache := g2.cache,
               sets := g2.sets, nextSetId := g2.nextId }
    let cacheKey := (language, cacheKeyWord)
    if cacheKeyWord ∈ setContents s1 g1.setId then (.resolved true, s1)
    else if cacheKeyWord ∈ setContents s1 g2.setId then (.resolved false, s1)
    else
      match alookup s1.pendingChecks cacheKey with
      | some p => (.pending p, s1)
      | none =>
        (.pending s1.nextPromiseId,
          { s1 with
            workerCalls := s1.workerCalls ++ [.checkWordCall trimmed language],
            pendingChecks := ainsert s1.pendingChecks cacheKey s1.nextPromiseId,
            issuedChecks := s1.issuedChecks ++
              [⟨s1.nextPromiseId, cacheKeyWord, cacheKey, g1.setId, g2.setId⟩],
            nextPromiseId := s1.nextPromiseId + 1 })

/-- Delivery of the worker's response to the continuation of one
`checkWord` call: on success record the verdict in the captured `Set`
and delete the pending entry; on failure delete the pending entry and
resolve `true` (fail open, nothing cached).  The returned Boolean is
the value the `checkWord` promise resolves to. -/
def ServiceState.deliverCheck (s : ServiceState) (c : CheckContinuation)
    (outcome : Except String Bool) : Bool × ServiceState :=
  match outcome with
  | .ok isCorrect =>
    (isCorrect,
      { s with
        sets := if isCorrect then addToSet s.sets c.correctSetId c.cacheKeyWord
                else addToSet s.sets c.misspelledSetId c.cacheKeyWord,
        pendingChecks := aremove s.pendingChecks c.cacheKey })
  | .error _ =>
    (true, { s with pendingChecks := aremove s.pendingChecks c.cacheKey })

/-- `SpellCheckerService.checkWords` up to its `await`: one batch
protocol call is always issued; the caches are not consulted. -/
def ServiceState.checkWords (s : ServiceState) (words : List String)
    (language : LanguageCode) : ServiceState :=
  { s with workerCalls := s.workerCalls ++ [.checkWordsCall words language] }

/-- Delivery of the batch result: fetch (or create) both per-language
sets and record each word's verdict under its normalised key by
insertion; on failure resolve with every input word mapped to `true`
and no cache update. -/
def ServiceState.deliverCheckWords (s : ServiceState) (words : List String)
    (language : LanguageCode) (outcome : Except String (List (String × Bool))) :
    List (String × Bool) × ServiceState :=
  match outcome with
  | .ok results =>
    let g1 := getOrCreate s.correctWordsCache s.sets s.nextSetId language
    let g2 := getOrCreate s.misspelledWordsCache g1.sets g1.nextId language
    let sets3 := results.foldl
      (fun acc wr =>
        if wr.2 then addToSet acc g1.setId (jsTrim (jsToLower wr.1))
        else addToSet acc g2.setId (jsTrim (jsToLower wr.1)))
      g2.sets
    (results,
      { s with correctWordsCache := g1.cache, misspelledWordsCache := g2.cache,
               sets := sets3, nextSetId := g2.nextId })
  | .error _ => (words.map fun w => (w, true), s)

/-- Outcome of `getSuggestions` before resolution. -/
inductive SuggestionsResult where
  | resolved (value : List String)
  | pending (promiseId : Nat)
deriving DecidableEq, Repr

/-- `SpellCheckerService.getSuggestions` up to its `await`: serve the
suggestion cache, else issue one `workerManager.getSuggestions` call. -/
def ServiceState.getSuggestions (s : ServiceState) (word : String)
    (language : LanguageCode) : SuggestionsResult × ServiceState :=
  let trimmed := jsTrim word
  let cacheKeyWord := jsToLower trimmed
  match alookup s.suggestionsCache (language, cacheKeyWord) with
  | some cached => (.resolved cached, s)
  | none =>
    (.pending s.nextPromiseId,
      { s with workerCalls := s.workerCalls ++ [.getSuggestionsCall trimmed language],
               nextPromiseId := s.nextPromiseId + 1 })

/-- Delivery of the raw candidate list: the empty list resolves `[]`
without caching; otherwise rank, cache and return the top five.  On
failure resolve `[]` (fail open, nothing cached). -/
def ServiceState.deliverSuggestions (s : ServiceState) (word : String)
    (language : LanguageCode) (outcome : Except String (List String)) :
    List String × ServiceState :=
  match outcome with
  | .ok allSuggestions =>
    if allSuggestions.length = 0 then ([], s)
    else
      let top := rankSuggestions word allSuggestions
      let cache := ainsert s.suggestionsCache (language, jsToLower (jsTrim word)) top
      (top, { s with suggestionsCache := cache })
  | .error _ => ([], s)

/-- `clearAllPendingChecks()`. -/
def ServiceState.clearAllPendingChecks (s : ServiceState) : ServiceState :=
  { s with pendingChecks := [] }

/-- `clearCache()`: clear all four `Map`s.  The heap `Set` objects
captured by in-flight continuations survive, detached from the maps. -/
def ServiceState.clearCache (s : ServiceState) : ServiceState :=
  { s with correctWordsCache := [], misspelledWordsCache := [],
           suggestionsCache := [], pendingChecks := [] }

/-- `clearWordCache(word, language)`: delete the normalised word from
both per-language sets when they exist and drop its suggestion entry. -/
def ServiceState.clearWordCache (s : ServiceState) (word : String)
    (language : LanguageCode) : ServiceState :=
  let normalized := jsTrim (jsToLower word)
  let sets1 := match alookup s.correctWordsCache language with
    | some cid => removeFromSet s.sets cid normalized
    | none => s.sets
  let sets2 := match alookup s.misspelledWordsCache language with
    | some mid => removeFromSet sets1 mid normalized
    | none => sets1
  { s with sets := sets2,
           suggestionsCache := aremove s.suggestionsCache (language, normalized) }

/-- Well-formedness: every set id reachable from a cache map is below
the allocator and bound in the heap. -/
def ServiceState.WF (s : ServiceState) : Prop :=
  (∀ L id, alookup s.correctWordsCache L = some id →
    id < s.nextSetId ∧ ∃ l, alookup s.sets id = some l) ∧
  (∀ L id, alookup s.misspelledWordsCache L = some id →
    id < s.nextSetId ∧ ∃ l, alookup s.sets id = some l)

theorem getOrCreate_hit {cache : List (LanguageCode × Nat)} {sets : List (Nat × List String)}
    {nextId : Nat} {lang : LanguageCode} {id : Nat} (h : alookup cache lang = some id) :
    getOrCreate cache sets nextId lang = ⟨id, cache, sets, nextId⟩ := by
  simp [getOrCreate, h]

theorem getOrCreate_miss {cache : List (LanguageCode × Nat)} {sets : List (Nat × List String)}
    {nextId : Nat} {lang : LanguageCode} (h : alookup cache lang = none) :
    getOrCreate cache sets nextId lang =
      ⟨nextId, ainsert cache lang nextId, ainsert sets nextId [], nextId + 1⟩ := by
  simp [getOrCreate, h]

theorem alookup_map_val {β : Type} (g : Nat → β → β) (sets : List (Nat × β)) (id : Nat) :
    alookup (sets.map fun e => (e.1, g e.1 e.2)) id = (alookup sets id).map (g id) := by
  induction sets with
  | nil => rfl
  | cons e rest ih =>
    by_cases h : e.1 = id
    · subst h
      simp [alookup]
    · simp [alookup, h, ih]

theorem alookup_addToSet (sets : List (Nat × List String)) (id' : Nat) (w : String)
    (id : Nat) :
    alookup (addToSet sets id' w) id =
      (alookup sets id).map fun l =>
        if id = id' then (if w ∈ l then l else l ++ [w]) else l := by
  unfold addToSet
  exact alookup_map_val (fun k l => if k = id' then (if w ∈ l then l else l ++ [w]) else l)
    sets id

theorem alookup_removeFromSet (sets : List (Nat × List String)) (id' : Nat) (w : String)
    (id : Nat) :
    alookup (removeFromSet sets id' w) id =
      (alookup sets id).map fun l =>
        if id = id' then l.filter (fun v => decide (v ≠ w)) else l := by
  unfold removeFromSet
  exact alookup_map_val (fun k l => if k = id' then l.filter (fun v => decide (v ≠ w)) else l)
    sets id

/-- Fetching (or creating) the correct-words and then the
misspelled-words set for a language: the final cache maps bind the two
returned ids, and the final heap binds them to the current contents of
the respective caches; well-formedness is preserved for the resulting
maps, heap and allocator. -/
theorem fetch_pair_spec (s : ServiceState) (L : LanguageCode) (hWF : s.WF)
    (g1 g2 : CacheFetch)
    (hg1 : g1 = getOrCreate s.correctWordsCache s.sets s.nextSetId L)
    (hg2 : g2 = getOrCreate s.misspelledWordsCache g1.sets g1.nextId L) :
    alookup g1.cache L = some g1.setId ∧
    alookup g2.cache L = some g2.setId ∧
    alookup g2.sets g1.setId = some (correctWordsOf s L) ∧
    alookup g2.sets g2.setId = some (misspelledWordsOf s L) ∧
    (∀ L' id', alookup g1.cache L' = some id' →
      id' < g2.nextId ∧ ∃ l, alookup g2.sets id' = some l) ∧
    (∀ L' id', alookup g2.cache L' = some id' →
      id' < g2.nextId ∧ ∃ l, alookup g2.sets id' = some l) := by
  obtain ⟨hWFc, hWFm⟩ := hWF
  rcases hcc : alookup s.correctWordsCache L with _ | cid <;>
    rcases hmc : alookup s.misspelledWordsCache L with _ | mid
  · -- both absent: allocate n and n+1
    rw [getOrCreate_miss hcc] at hg1
    subst hg1
    simp only at hg2
    rw [getOrCreate_miss hmc] at hg2
    subst hg2
    simp only
    refine ⟨alookup_ainsert _ _ _, alookup_ainsert _ _ _, ?_, ?_, ?_, ?_⟩
    · rw [alookup_ainsert_ne _ _ _ _ (by omega), alookup_ainsert,
        correctWordsOf, hcc]
    · rw [alookup_ainsert, misspelledWordsOf, hmc]
    · intro L' id' h'
      by_cases hL' : L = L'
      · subst hL'
        rw [alookup_ainsert] at h'
        obtain rfl : s.nextSetId = id' := by injection h'
        refine ⟨by omega, [], ?_⟩
        rw [alookup_ainsert_ne _ _ _ _ (by omega), alookup_ainsert]
      · rw [alookup_ainsert_ne _ _ _ _ hL'] at h'
        obtain ⟨hb, l, hl⟩ := hWFc L' id' h'
        refine ⟨by omega, l, ?_⟩
        rw [alookup_ainsert_ne _ _ _ _ (by omega), alookup_ainsert_ne _ _ _ _ (by omega), hl]
    · intro L' id' h'
      by_cases hL' : L = L'
      · subst hL'
        rw [alookup_ainsert] at h'
        obtain rfl : s.nextSetId + 1 = id' := by injection h'
        refine ⟨by omega, [], ?_⟩
        rw [alookup_ainsert]
      · rw [alookup_ainsert_ne _ _ _ _ hL'] at h'
        obtain ⟨hb, l, hl⟩ := hWFm L' id' h'
        refine ⟨by omega, l, ?_⟩
        rw [alookup_ainsert_ne _ _ _ _ (by omega), alookup_ainsert_ne _ _ _ _ (by omega), hl]
  · -- correct absent, misspelled present
    rw [getOrCreate_miss hcc] at hg1
    subst hg1
    simp only at hg2
    rw [getOrCreate_hit hmc] at hg2
    subst hg2
    simp only
    obtain ⟨hmidb, lm, hlm⟩ := hWFm L mid hmc
    refine ⟨alookup_ainsert _ _ _, hmc, ?_, ?_, ?_, ?_⟩
    · rw [alookup_ainsert, correctWordsOf, hcc]
    · rw [alookup_ainsert_ne _ _ _ _ (by omega), hlm]
      simp [misspelledWordsOf, hmc, setContents, hlm]
    · intro L' id' h'
      by_cases hL' : L = L'
      · subst hL'
        rw [alookup_ainsert] at h'
        obtain rfl : s.nextSetId = id' := by injection h'
        refine ⟨by omega, [], ?_⟩
        rw [alookup_ainsert]
      · rw [alookup_ainsert_ne _ _ _ _ hL'] at h'
        obtain ⟨hb, l, hl⟩ := hWFc L' id' h'
        refine ⟨by omega, l, ?_⟩
        rw [alookup_ainsert_ne _ _ _ _ (by omega), hl]
    · intro L' id' h'
      obtain ⟨hb, l, hl⟩ := hWFm L' id' h'
      refine ⟨by omega, l, ?_⟩
      rw [alookup_ainsert_ne _ _ _ _ (by omega), hl]
  · -- correct present, misspelled absent
    rw [getOrCreate_hit hcc] at hg1
    subst hg1
    simp only at hg2
    rw [getOrCreate_miss hmc] at hg2
    subst hg2
    simp only
    obtain ⟨hcidb, lc, hlc⟩ := hWFc L cid hcc
    refine ⟨hcc, alookup_ainsert _ _ _, ?_, ?_, ?_, ?_⟩
    · rw [alookup_ainsert_ne _ _ _ _ (by omega), hlc]
      simp [correctWordsOf, hcc, setContents, hlc]
    · rw [alookup_ainsert, misspelledWordsOf, hmc]
    · intro L' id' h'
      obtain ⟨hb, l, hl⟩ := hWFc L' id' h'
      refine ⟨by omega, l, ?_⟩
      rw [alookup_ainsert_ne _ _ _ _ (by omega), hl]
    · intro L' id' h'
      by_cases hL' : L = L'
      · subst hL'
        rw [alookup_ainsert] at h'
        obtain rfl : s.nextSetId = id' := by injection h'
        refine ⟨by omega, [], ?_⟩
        rw [alookup_ainsert]
      · rw [alookup_ainsert_ne _ _ _ _ hL'] at h'
        obtain ⟨hb, l, hl⟩ := hWFm L' id' h'
        refine ⟨by omega, l, ?_⟩
        rw [alookup_ainsert_ne _ _ _ _ (by omega), hl]
  · -- both present
    rw [getOrCreate_hit hcc] at hg1
    subst hg1
    simp only at hg2
    rw [getOrCreate_hit hmc] at hg2
    subst hg2
    simp only
    obtain ⟨hcidb, lc, hlc⟩ := hWFc L cid hcc
    obtain ⟨hmidb, lm, hlm⟩ := hWFm L mid hmc
    refine ⟨hcc, hmc, ?_, ?_, ?_, ?_⟩
    · rw [hlc]
      simp [correctWordsOf, hcc, setContents, hlc]
    · rw [hlm]
      simp [misspelledWordsOf, hmc, setContents, hlm]
    · intro L' id' h'
      obtain ⟨hb, l, hl⟩ := hWFc L' id' h'
      exact ⟨hb, l, hl⟩
    · intro L' id' h'
      obtain ⟨hb, l, hl⟩ := hWFm L' id' h'
      exact ⟨hb, l, hl⟩

/-- Symbolic execution of `checkWord` on a double cache miss with no
pending check: the call returns a fresh pending promise, issues exactly
one `workerManager.checkWord` protocol call, registers the pending
entry, and records a continuation capturing the two per-language `Set`
objects; the caches' observable contents are unchanged. -/
theorem checkWord_fresh_spec (s : ServiceState) (w : String) (L : LanguageCode)
    (hWF : s.WF)
    (hlen : MIN_WORD_LENGTH ≤ (jsTrim w).length)
    (hc : jsToLower (jsTrim w) ∉ correctWordsOf s L)
    (hm : jsToLower (jsTrim w) ∉ misspelledWordsOf s L)
    (hp : alookup s.pendingChecks (L, jsToLower (jsTrim w)) = none) :
    ∃ cid mid,
      (s.checkWord w L).1 = CheckResult.pending s.nextPromiseId ∧
      (s.checkWord w L).2.WF ∧
      alookup (s.checkWord w L).2.correctWordsCache L = some cid ∧
      alookup (s.checkWord w L).2.misspelledWordsCache L = some mid ∧
      alookup (s.checkWord w L).2.sets cid = some (correctWordsOf s L) ∧
      alookup (s.checkWord w L).2.sets mid = some (misspelledWordsOf s L) ∧
      (s.checkWord w L).2.pendingChecks =
        ainsert s.pendingChecks (L, jsToLower (jsTrim w)) s.nextPromiseId ∧
      (s.checkWord w L).2.workerCalls =
        s.workerCalls ++ [WorkerCall.checkWordCall (jsTrim w) L] ∧
      (s.checkWord w L).2.nextPromiseId = s.nextPromiseId + 1 ∧
      (s.checkWord w L).2.suggestionsCache = s.suggestionsCache ∧
      (s.checkWord w L).2.issuedChecks = s.issuedChecks ++
        [⟨s.nextPromiseId, jsToLower (jsTrim w), (L, jsToLower (jsTrim w)), cid, mid⟩] := by
  obtain ⟨hF1, hF2, hF3, hF4, hW1, hW2⟩ := fetch_pair_spec s L hWF _ _ rfl rfl
  have hlen' : ¬((jsTrim w).length < MIN_WORD_LENGTH) := by omega
  have hstep : s.checkWord w L =
      (CheckResult.pending s.nextPromiseId,
        { s with
          correctWordsCache := (getOrCreate s.correctWordsCache s.sets s.nextSetId L).cache,
          misspelledWordsCache := (getOrCreate s.misspelledWordsCache
            (getOrCreate s.correctWordsCache s.sets s.nextSetId L).sets
            (getOrCreate s.correctWordsCache s.sets s.nextSetId L).nextId L).cache,
          sets := (getOrCreate s.misspelledWordsCache
            (getOrCreate s.correctWordsCache s.sets s.nextSetId L).sets
            (getOrCreate s.correctWordsCache s.sets s.nextSetId L).nextId L).sets,
          nextSetId := (getOrCreate s.misspelledWordsCache
            (getOrCreate s.correctWordsCache s.sets s.nextSetId L).sets
            (getOrCreate s.correctWordsCache s.sets s.nextSetId L).nextId L).nextId,
          workerCalls := s.workerCalls ++ [WorkerCall.checkWordCall (jsTrim w) L],
          pendingChecks := ainsert s.pendingChecks (L, jsToLower (jsTrim w)) s.nextPromiseId,
          issuedChecks := s.issuedChecks ++
            [⟨s.nextPromiseId, jsToLower (jsTrim w), (L, jsToLower (jsTrim w)),
              (getOrCreate s.correctWordsCache s.sets s.nextSetId L).setId,
              (getOrCreate s.misspelledWordsCache
                (getOrCreate s.correctWordsCache s.sets s.nextSetId L).sets
                (getOrCreate s.correctWordsCache s.sets s.nextSetId L).nextId L).setId⟩],
          nextPromiseId := s.nextPromiseId + 1 }) := by
    unfold ServiceState.checkWord
    rw [if_neg hlen']
    dsimp only [setContents]
    rw [hF3, hF4]
    simp only [Option.getD_some]
    rw [if_neg hc, if_neg hm, hp]
  refine ⟨(getOrCreate s.correctWordsCache s.sets s.nextSetId L).setId,
    (getOrCreate s.misspelledWordsCache
      (getOrCreate s.correctWordsCache s.sets s.nextSetId L).sets
      (getOrCreate s.correctWordsCache s.sets s.nextSetId L).nextId L).setId,
    ?_, ?_, ?_, ?_, ?_, ?_, ?_, ?_, ?_, ?_, ?_⟩
  · rw [hstep]
  · rw [hstep]
    exact ⟨hW1, hW2⟩
  · rw [hstep]
    exact hF1
  · rw [hstep]
    exact hF2
  · rw [hstep]
    exact hF3
  · rw [hstep]
    exact hF4
  · rw [hstep]
  · rw [hstep]
  · rw [hstep]
  · rw [hstep]
  · rw [hstep]

/-- Symbolic execution of `checkWord` when a check for the same
normalised key is already pending: the stored promise is returned and
no protocol call is made. -/
theorem checkWord_pending_hit_spec (s : ServiceState) (w : String) (L : LanguageCode)
    (p : Nat) (hWF : s.WF)
    (hlen : MIN_WORD_LENGTH ≤ (jsTrim w).length)
    (hc : jsToLower (jsTrim w) ∉ correctWordsOf s L)
    (hm : jsToLower (jsTrim w) ∉ misspelledWordsOf s L)
    (hp : alookup s.pendingChecks (L, jsToLower (jsTrim w)) = some p) :
    (s.checkWord w L).1 = CheckResult.pending p ∧
    (s.checkWord w L).2.workerCalls = s.workerCalls ∧
    (s.checkWord w L).2.pendingChecks = s.pendingChecks ∧
    (s.checkWord w L).2.issuedChecks = s.issuedChecks := by
  obtain ⟨hF1, hF2, hF3, hF4, hW1, hW2⟩ := fetch_pair_spec s L hWF _ _ rfl rfl
  have hlen' : ¬((jsTrim w).length < MIN_WORD_LENGTH) := by omega
  have hstep : s.checkWord w L =
      (CheckResult.pending p,
        { s with
          correctWordsCache := (getOrCreate s.correctWordsCache s.sets s.nextSetId L).cache,
          misspelledWordsCache := (getOrCreate s.misspelledWordsCache
            (getOrCreate s.correctWordsCache s.sets s.nextSetId L).sets
            (getOrCreate s.correctWordsCache s.sets s.nextSetId L).nextId L).cache,
          sets := (getOrCreate s.misspelledWordsCache
            (getOrCreate s.correctWordsCache s.sets s.nextSetId L).sets
            (getOrCreate s.correctWordsCache s.sets s.nextSetId L).nextId L).sets,
          nextSetId := (getOrCreate s.misspelledWordsCache
            (getOrCreate s.correctWordsCache s.sets s.nextSetId L).sets
            (getOrCreate s.correctWordsCache s.sets s.nextSetId L).nextId L).nextId }) := by
    unfold ServiceState.checkWord
    rw [if_neg hlen']
    dsimp only [setContents]
    rw [hF3, hF4]
    simp only [Option.getD_some]
    rw [if_neg hc, if_neg hm, hp]
  rw [hstep]
  exact ⟨rfl, rfl, rfl, rfl⟩

/-- Symbolic execution of `checkWord` on a correct-cache hit: resolves
`true` with no protocol call. -/
theorem checkWord_hit_correct_spec (s : ServiceState) (w : String) (L : LanguageCode)
    (hWF : s.WF)
    (hlen : MIN_WORD_LENGTH ≤ (jsTrim w).length)
    (hc : jsToLower (jsTrim w) ∈ correctWordsOf s L) :
    (s.checkWord w L).1 = CheckResult.resolved true ∧
    (s.checkWord w L).2.workerCalls = s.workerCalls := by
  obtain ⟨hF1, hF2, hF3, hF4, hW1, hW2⟩ := fetch_pair_spec s L hWF _ _ rfl rfl
  have hlen' : ¬((jsTrim w).length < MIN_WORD_LENGTH) := by omega
  have hstep : (s.checkWord w L).1 = CheckResult.resolved true ∧
      (s.checkWord w L).2.workerCalls = s.workerCalls := by
    unfold ServiceState.checkWord
    rw [if_neg hlen']
    dsimp only [setContents]
    rw [hF3]
    simp only [Option.getD_some]
    rw [if_pos hc]
    exact ⟨rfl, rfl⟩
  exact hstep

/-- Symbolic execution of `checkWord` on a misspelled-cache hit:
resolves `false` with no protocol call. -/
theorem checkWord_hit_misspelled_spec (s : ServiceState) (w : String) (L : LanguageCode)
    (hWF : s.WF)
    (hlen : MIN_WORD_LENGTH ≤ (jsTrim w).length)
    (hc : jsToLower (jsTrim w) ∉ correctWordsOf s L)
    (hm : jsToLower (jsTrim w) ∈ misspelledWordsOf s L) :
    (s.checkWord w L).1 = CheckResult.resolved false ∧
    (s.checkWord w L).2.workerCalls = s.workerCalls := by
  obtain ⟨hF1, hF2, hF3, hF4, hW1, hW2⟩ := fetch_pair_spec s L hWF _ _ rfl rfl
  have hlen' : ¬((jsTrim w).length < MIN_WORD_LENGTH) := by omega
  unfold ServiceState.checkWord
  rw [if_neg hlen']
  dsimp only [setContents]
  rw [hF3, hF4]
  simp only [Option.getD_some]
  rw [if_neg hc, if_pos hm]
  exact ⟨rfl, rfl⟩

theorem initialService_WF : initialService.WF := by
  constructor <;> intro L id h <;> simp [initialService, alookup] at h

/-- C2: while a check for `w, L` is unresolved and the word is in
neither cache, a first `checkWord` call issues exactly one protocol
call to the worker and registers a pending promise; a second call made
before resolution finds the key in the pending-checks table and
returns the same promise without invoking `WorkerManager.checkWord`
again. -/
theorem claim2_pending_dedup (s : ServiceState) (w : String) (L : LanguageCode)
    (hWF : s.WF)
    (hlen : MIN_WORD_LENGTH ≤ (jsTrim w).length)
    (hc : jsToLower (jsTrim w) ∉ correctWordsOf s L)
    (hm : jsToLower (jsTrim w) ∉ misspelledWordsOf s L)
    (hp : alookup s.pendingChecks (L, jsToLower (jsTrim w)) = none) :
    ∃ p,
      (s.checkWord w L).1 = CheckResult.pending p ∧
      ((s.checkWord w L).2.checkWord w L).1 = CheckResult.pending p ∧
      (s.checkWord w L).2.workerCalls =
        s.workerCalls ++ [WorkerCall.checkWordCall (jsTrim w) L] ∧
      ((s.checkWord w L).2.checkWord w L).2.workerCalls = (s.checkWord w L).2.workerCalls := by
  obtain ⟨cid, mid, h1, hWF', hc1, hm1, hs1, hs2, hpend, hcalls, hnp, hsug, hic⟩ :=
    checkWord_fresh_spec s w L hWF hlen hc hm hp
  have hco : correctWordsOf (s.checkWord w L).2 L = correctWordsOf s L := by
    simp [correctWordsOf, hc1, setContents, hs1]
  have hmo : misspelledWordsOf (s.checkWord w L).2 L = misspelledWordsOf s L := by
    simp [misspelledWordsOf, hm1, setContents, hs2]
  have hc' : jsToLower (jsTrim w) ∉ correctWordsOf (s.checkWord w L).2 L := by
    rw [hco]; exact hc
  have hm' : jsToLower (jsTrim w) ∉ misspelledWordsOf (s.checkWord w L).2 L := by
    rw [hmo]; exact hm
  have hp' : alookup (s.checkWord w L).2.pendingChecks (L, jsToLower (jsTrim w)) =
      some s.nextPromiseId := by
    rw [hpend]
    exact alookup_ainsert _ _ _
  obtain ⟨h2, hcalls2, _, _⟩ :=
    checkWord_pending_hit_spec (s.checkWord w L).2 w L s.nextPromiseId hWF' hlen hc' hm' hp'
  exact ⟨s.nextPromiseId, h1, h2, hcalls, hcalls2⟩

/-- Witness for C2: a fresh service checking `helllo` in English. -/
theorem claim2_pending_dedup_witness :
    ∃ p,
      (initialService.checkWord "helllo" LanguageCode.en).1 = CheckResult.pending p ∧
      ((initialService.checkWord "helllo" LanguageCode.en).2.checkWord "helllo"
        LanguageCode.en).1 = CheckResult.pending p ∧
      (initialService.checkWord "helllo" LanguageCode.en).2.workerCalls =
        initialService.workerCalls ++
          [WorkerCall.checkWordCall (jsTrim "helllo") LanguageCode.en] ∧
      ((initialService.checkWord "helllo" LanguageCode.en).2.checkWord "helllo"
        LanguageCode.en).2.workerCalls =
        (initialService.checkWord "helllo" LanguageCode.en).2.workerCalls :=
  claim2_pending_dedup initialService "helllo" LanguageCode.en initialService_WF
    (by decide) (by decide) (by decide) (by decide)

/-- Decidable per-language well-formedness check. -/
def cacheEntryOK (cache : List (LanguageCode × Nat)) (sets : List (Nat × List String))
    (n : Nat) (L : LanguageCode) : Bool :=
  match alookup cache L with
  | some id => decide (id < n) && (alookup sets id).isSome
  | none => true

/-- Decidable well-formedness check over both languages. -/
def ServiceState.checkWF (s : ServiceState) : Bool :=
  cacheEntryOK s.correctWordsCache s.sets s.nextSetId LanguageCode.en &&
  cacheEntryOK s.correctWordsCache s.sets s.nextSetId LanguageCode.de &&
  cacheEntryOK s.misspelledWordsCache s.sets s.nextSetId LanguageCode.en &&
  cacheEntryOK s.misspelledWordsCache s.sets s.nextSetId LanguageCode.de

theorem cacheEntryOK_spec {cache : List (LanguageCode × Nat)} {sets : List (Nat × List String)}
    {n : Nat} {L : LanguageCode} (h : cacheEntryOK cache sets n L = true)
    {id : Nat} (hid : alookup cache L = some id) :
    id < n ∧ ∃ l, alookup sets id = some l := by
  unfold cacheEntryOK at h
  rw [hid] at h
  simp at h
  exact ⟨h.1, Option.isSome_iff_exists.mp h.2⟩

theorem WF_of_checkWF (s : ServiceState) (h : s.checkWF = true) : s.WF := by
  unfold ServiceState.checkWF at h
  simp only [Bool.and_eq_true] at h
  obtain ⟨⟨⟨h1, h2⟩, h3⟩, h4⟩ := h
  constructor <;> intro L id hid <;> cases L
  · exact cacheEntryOK_spec h1 hid
  · exact cacheEntryOK_spec h2 hid
  · exact cacheEntryOK_spec h3 hid
  · exact cacheEntryOK_spec h4 hid

/-- C5: every worker failure is swallowed and fails open — a rejected
single-word check resolves `true`, a rejected batch resolves with every
input word mapped to `true`, and rejected suggestions resolve to the
empty list; no error reaches the caller (the delivery functions are
total and return plain values). -/
theorem claim5_fail_open :
    (∀ (s : ServiceState) (c : CheckContinuation) (msg : String),
      (s.deliverCheck c (.error msg)).1 = true) ∧
    (∀ (s : ServiceState) (words : List String) (L : LanguageCode) (msg : String),
      (s.deliverCheckWords words L (.error msg)).1 = words.map fun w => (w, true)) ∧
    (∀ (s : ServiceState) (w : String) (L : LanguageCode) (msg : String),
      (s.deliverSuggestions w L (.error msg)).1 = []) :=
  ⟨fun _ _ _ => rfl, fun _ _ _ _ => rfl, fun _ _ _ _ => rfl⟩

/-- The service state after `monday` was checked once for English and
the worker answered "correct": the word is resolved in the
correct-words cache. -/
def c3resolved : ServiceState :=
  (((initialService.checkWord "monday" LanguageCode.en).2).deliverCheck
    ⟨0, "monday", (LanguageCode.en, "monday"), 0, 1⟩ (.ok true)).2

/-- C3 as stated is false for the batch path: with `monday` already
resolved as correct for English, `checkWords(["monday"], en)` still
issues one more protocol call to the worker — the batch path never
reads the cache. -/
theorem claim3_counterexample :
    ((initialService.checkWord "monday" LanguageCode.en).2).issuedChecks =
      [⟨0, "monday", (LanguageCode.en, "monday"), 0, 1⟩] ∧
    correctWordsOf c3resolved LanguageCode.en = ["monday"] ∧
    c3resolved.workerCalls = [WorkerCall.checkWordCall "monday" LanguageCode.en] ∧
    (c3resolved.checkWords ["monday"] LanguageCode.en).workerCalls =
      [WorkerCall.checkWordCall "monday" LanguageCode.en,
       WorkerCall.checkWordsCall ["monday"] LanguageCode.en] := by
  decide

/-- C3 amended: on the single-word path a repeated check of an already
resolved word resolves from the cache with zero additional protocol
calls; the batch path `checkWords` always issues exactly one protocol
call for its whole word list regardless of cache contents (the cache is
written on delivery, never read). -/
theorem claim3_amended :
    (∀ (s : ServiceState) (w : String) (L : LanguageCode), s.WF →
      MIN_WORD_LENGTH ≤ (jsTrim w).length →
      jsToLower (jsTrim w) ∈ correctWordsOf s L →
      (s.checkWord w L).1 = CheckResult.resolved true ∧
      (s.checkWord w L).2.workerCalls = s.workerCalls) ∧
    (∀ (s : ServiceState) (w : String) (L : LanguageCode), s.WF →
      MIN_WORD_LENGTH ≤ (jsTrim w).length →
      jsToLower (jsTrim w) ∉ correctWordsOf s L →
      jsToLower (jsTrim w) ∈ misspelledWordsOf s L →
      (s.checkWord w L).1 = CheckResult.resolved false ∧
      (s.checkWord w L).2.workerCalls = s.workerCalls) ∧
    (∀ (s : ServiceState) (words : List String) (L : LanguageCode),
      (s.checkWords words L).workerCalls =
        s.workerCalls ++ [WorkerCall.checkWordsCall words L]) :=
  ⟨fun s w L hWF hlen hc => checkWord_hit_correct_spec s w L hWF hlen hc,
   fun s w L hWF hlen hc hm => checkWord_hit_misspelled_spec s w L hWF hlen hc hm,
   fun _ _ _ => rfl⟩

/-- Witness for C3 amended: re-checking the cached `monday`. -/
theorem claim3_amended_witness :
    (c3resolved.checkWord "monday" LanguageCode.en).1 = CheckResult.resolved true ∧
    (c3resolved.checkWord "monday" LanguageCode.en).2.workerCalls = c3resolved.workerCalls :=
  claim3_amended.1 c3resolved "monday" LanguageCode.en
    (WF_of_checkWF c3resolved (by decide)) (by decide) (by decide)

/-- The service state after checking `Monday` for English on a fresh
service and delivering the worker's verdict for the original-case word
(correct, since the engine contains the capitalized weekday). -/
def c8afterMonday : ServiceState :=
  (((initialService.checkWord "Monday" LanguageCode.en).2).deliverCheck
    ⟨0, "monday", (LanguageCode.en, "monday"), 0, 1⟩
    (.ok (workerCheckWord mondayEngine "Monday"))).2

/-- C8 as stated is false through the service interface: after
`checkWord("Monday")` resolves correct, the verdict is cached under the
lowercase key `monday`, so the subsequent `checkWord("monday")` is a
cache hit resolving `true` — not the `incorrect` the claim requires for
every order of the two checks. -/
theorem claim8_counterexample :
    workerCheckWord mondayEngine "Monday" = true ∧
    workerCheckWord mondayEngine "monday" = false ∧
    ((initialService.checkWord "Monday" LanguageCode.en).2).issuedChecks =
      [⟨0, "monday", (LanguageCode.en, "monday"), 0, 1⟩] ∧
    (((initialService.checkWord "Monday" LanguageCode.en).2).deliverCheck
      ⟨0, "monday", (LanguageCode.en, "monday"), 0, 1⟩
      (.ok (workerCheckWord mondayEngine "Monday"))).1 = true ∧
    (c8afterMonday.checkWord "monday" LanguageCode.en).1 = CheckResult.resolved true := by
  decide

/-- C8 amended: at the worker level a word is correct iff the
original-case or the lowercased trimmed form passes the engine, so
`Monday` is correct and `monday` incorrect whenever each is the first
check to reach the worker (e.g. on a fresh service); through the
service's shared lowercase cache key the second of the two checks
returns the first one's cached verdict, so the order-independence part
of the claim fails. -/
theorem claim8_amended :
    (∀ (engine : String → Bool) (w : String),
      MIN_WORD_LENGTH ≤ (jsTrim w).length →
      (workerCheckWord engine w = true ↔
        engine (jsTrim w) = true ∨ engine (jsToLower (jsTrim w)) = true)) ∧
    workerCheckWord mondayEngine "Monday" = true ∧
    workerCheckWord mondayEngine "monday" = false ∧
    (((initialService.checkWord "Monday" LanguageCode.en).2).deliverCheck
      ⟨0, "monday", (LanguageCode.en, "monday"), 0, 1⟩
      (.ok (workerCheckWord mondayEngine "Monday"))).1 = true ∧
    (((initialService.checkWord "monday" LanguageCode.en).2).deliverCheck
      ⟨0, "monday", (LanguageCode.en, "monday"), 0, 1⟩
      (.ok (workerCheckWord mondayEngine "monday"))).1 = false := by
  refine ⟨?_, by decide, by decide, by decide, by decide⟩
  intro engine w hlen
  have hlen2 : 2 ≤ (jsTrim w).length := hlen
  unfold workerCheckWord
  rw [if_neg (by omega)]
  by_cases h1 : engine (jsTrim w) = true
  · simp [h1]
  · by_cases h2 : jsToLower (jsTrim w) = jsTrim w
    · simp [h1, h2]
    · simp [h1, h2]

/-- Witness for C8 amended: the worker-level equivalence at the
concrete engine and word. -/
theorem claim8_amended_witness :
    MIN_WORD_LENGTH ≤ (jsTrim "Monday").length ∧
    (workerCheckWord mondayEngine "Monday" = true ↔
      mondayEngine (jsTrim "Monday") = true ∨
      mondayEngine (jsToLower (jsTrim "Monday")) = true) :=
  ⟨by decide, claim8_amended.1 mondayEngine "Monday" (by decide)⟩

theorem addToSet_mono {sets : List (Nat × List String)} {id : Nat} {v : String}
    (id' : Nat) (w : String) (h : v ∈ (alookup sets id).getD []) :
    v ∈ (alookup (addToSet sets id' w) id).getD [] := by
  rw [alookup_addToSet]
  cases hl : alookup sets id with
  | none => rw [hl] at h; simp at h
  | some l =>
    rw [hl] at h
    dsimp only [Option.map, Option.getD] at h ⊢
    by_cases hid : id = id'
    · rw [if_pos hid]
      by_cases hw : w ∈ l
      · rw [if_pos hw]; exact h
      · rw [if_neg hw]; exact List.mem_append_left _ h
    · rw [if_neg hid]; exact h

theorem addToSet_self_mem {sets : List (Nat × List String)} {id : Nat} {l : List String}
    (w : String) (h : alookup sets id = some l) :
    w ∈ (alookup (addToSet sets id w) id).getD [] := by
  rw [alookup_addToSet, h]
  dsimp only [Option.map, Option.getD]
  rw [if_pos rfl]
  by_cases hw : w ∈ l
  · rw [if_pos hw]; exact hw
  · rw [if_neg hw]; exact List.mem_append_right _ (by simp)

theorem addToSet_isSome {sets : List (Nat × List String)} {id : Nat}
    (id' : Nat) (w : String) {l : List String} (h : alookup sets id = some l) :
    ∃ l', alookup (addToSet sets id' w) id = some l' := by
  rw [alookup_addToSet, h]
  exact ⟨_, rfl⟩

/-- The recording fold of `deliverCheckWords`. -/
def recordFold (cid mid : Nat) (results : List (String × Bool))
    (sets : List (Nat × List String)) : List (Nat × List String) :=
  results.foldl
    (fun acc wr =>
      if wr.2 then addToSet acc cid (jsTrim (jsToLower wr.1))
      else addToSet acc mid (jsTrim (jsToLower wr.1)))
    sets

theorem recordFold_mono (cid mid : Nat) (results : List (String × Bool)) :
    ∀ (sets : List (Nat × List String)) (id : Nat) (v : String),
      v ∈ (alookup sets id).getD [] →
      v ∈ (alookup (recordFold cid mid results sets) id).getD [] := by
  induction results with
  | nil => intro sets id v h; exact h
  | cons wr rest ih =>
    intro sets id v h
    unfold recordFold at ih ⊢
    rw [List.foldl_cons]
    by_cases hb : wr.2 = true
    · rw [if_pos hb]
      exact ih _ id v (addToSet_mono cid _ h)
    · rw [if_neg hb]
      exact ih _ id v (addToSet_mono mid _ h)

theorem recordFold_records (cid mid : Nat) (results : List (String × Bool)) :
    ∀ (sets : List (Nat × List String)) (lc lm : List String),
      alookup sets cid = some lc → alookup sets mid = some lm →
      ∀ p ∈ results,
        jsTrim (jsToLower p.1) ∈
          (alookup (recordFold cid mid results sets) (if p.2 then cid else mid)).getD [] := by
  induction results with
  | nil => intro sets lc lm hc hm p hp; exact absurd hp (by simp)
  | cons wr rest ih =>
    intro sets lc lm hc hm p hp
    unfold recordFold at ih ⊢
    rw [List.foldl_cons]
    rcases List.mem_cons.mp hp with rfl | hp'
    · by_cases hb : p.2 = true
      · rw [if_pos hb, if_pos hb]
        have hself := addToSet_self_mem (jsTrim (jsToLower p.1)) hc
        exact recordFold_mono cid mid rest _ cid _ hself
      · rw [if_neg hb, if_neg hb]
        have hself := addToSet_self_mem (jsTrim (jsToLower p.1)) hm
        exact recordFold_mono cid mid rest _ mid _ hself
    · by_cases hb : wr.2 = true
      · rw [if_pos hb]
        obtain ⟨lc', hlc'⟩ := addToSet_isSome cid (jsTrim (jsToLower wr.1)) hc
        obtain ⟨lm', hlm'⟩ := addToSet_isSome cid (jsTrim (jsToLower wr.1)) hm
        exact ih _ lc' lm' hlc' hlm' p hp'
      · rw [if_neg hb]
        obtain ⟨lc', hlc'⟩ := addToSet_isSome mid (jsTrim (jsToLower wr.1)) hc
        obtain ⟨lm', hlm'⟩ := addToSet_isSome mid (jsTrim (jsToLower wr.1)) hm
        exact ih _ lc' lm' hlc' hlm' p hp'

/-- The service state after one batch check of `["Monday", "monday"]`
against the English engine: the two casings share the normalised key
`monday`, which ends up in both per-language sets. -/
def c4batch : ServiceState :=
  ((initialService.checkWords ["Monday", "monday"] LanguageCode.en).deliverCheckWords
    ["Monday", "monday"] LanguageCode.en
    (.ok (workerCheckWords mondayEngine ["Monday", "monday"]))).2

/-- C4 as stated is false: recording a batch result inserts into one
set without removing the key from the other, so after a batch whose
results assign `Monday → correct` and `monday → incorrect` the
normalised key `monday` is a member of both the correct-words and the
misspelled-words set for English. -/
theorem claim4_counterexample :
    workerCheckWords mondayEngine ["Monday", "monday"] =
      [("Monday", true), ("monday", false)] ∧
    "monday" ∈ correctWordsOf c4batch LanguageCode.en ∧
    "monday" ∈ misspelledWordsOf c4batch LanguageCode.en := by
  decide

/-- C4 amended: recording a batch result only ever inserts — every word
already in either per-language set stays there, and every delivered
verdict lands in its own set — so the two sets per language are not
kept disjoint; a batch assigning both verdicts to two casings of one
normalised key leaves the key in both sets. -/
theorem claim4_amended (s : ServiceState) (words : List String) (L : LanguageCode)
    (results : List (String × Bool)) (hWF : s.WF) :
    (∀ v, v ∈ correctWordsOf s L →
      v ∈ correctWordsOf (s.deliverCheckWords words L (.ok results)).2 L) ∧
    (∀ v, v ∈ misspelledWordsOf s L →
      v ∈ misspelledWordsOf (s.deliverCheckWords words L (.ok results)).2 L) ∧
    (∀ p ∈ results, p.2 = true →
      jsTrim (jsToLower p.1) ∈ correctWordsOf (s.deliverCheckWords words L (.ok results)).2 L) ∧
    (∀ p ∈ results, p.2 = false →
      jsTrim (jsToLower p.1) ∈
        misspelledWordsOf (s.deliverCheckWords words L (.ok results)).2 L) := by
  obtain ⟨hF1, hF2, hF3, hF4, hW1, hW2⟩ := fetch_pair_spec s L hWF _ _ rfl rfl
  have hstep : (s.deliverCheckWords words L (.ok results)).2 =
      { s with
        correctWordsCache := (getOrCreate s.correctWordsCache s.sets s.nextSetId L).cache,
        misspelledWordsCache := (getOrCreate s.misspelledWordsCache
          (getOrCreate s.correctWordsCache s.sets s.nextSetId L).sets
          (getOrCreate s.correctWordsCache s.sets s.nextSetId L).nextId L).cache,
        sets := recordFold
          (getOrCreate s.correctWordsCache s.sets s.nextSetId L).setId
          (getOrCreate s.misspelledWordsCache
            (getOrCreate s.correctWordsCache s.sets s.nextSetId L).sets
            (getOrCreate s.correctWordsCache s.sets s.nextSetId L).nextId L).setId
          results
          (getOrCreate s.misspelledWordsCache
            (getOrCreate s.correctWordsCache s.sets s.nextSetId L).sets
            (getOrCreate s.correctWordsCache s.sets s.nextSetId L).nextId L).sets,
        nextSetId := (getOrCreate s.misspelledWordsCache
          (getOrCreate s.correctWordsCache s.sets s.nextSetId L).sets
          (getOrCreate s.correctWordsCache s.sets s.nextSetId L).nextId L).nextId } := by
    unfold ServiceState.deliverCheckWords recordFold
    rfl
  refine ⟨?_, ?_, ?_, ?_⟩
  · intro v hv
    rw [hstep, correctWordsOf]
    simp only [hF1]
    rw [setContents]
    refine recordFold_mono _ _ results _ _ v ?_
    rw [hF3]
    simpa using hv
  · intro v hv
    rw [hstep, misspelledWordsOf]
    simp only [hF2]
    rw [setContents]
    refine recordFold_mono _ _ results _ _ v ?_
    rw [hF4]
    simpa using hv
  · intro p hp hb
    have hrec := recordFold_records _ _ results _ _ _ hF3 hF4 p hp
    rw [if_pos hb] at hrec
    rw [hstep, correctWordsOf]
    simp only [hF1]
    rw [setContents]
    exact hrec
  · intro p hp hb
    have hrec := recordFold_records _ _ results _ _ _ hF3 hF4 p hp
    rw [if_neg (by simp [hb])] at hrec
    rw [hstep, misspelledWordsOf]
    simp only [hF2]
    rw [setContents]
    exact hrec

/-- Witness for C4 amended: the batch of the counterexample run. -/
theorem claim4_amended_witness :
    ("monday", false) ∈ workerCheckWords mondayEngine ["Monday", "monday"] ∧
    jsTrim (jsToLower "monday") ∈
      misspelledWordsOf
        ((initialService.checkWords ["Monday", "monday"]
          LanguageCode.en).deliverCheckWords ["Monday", "monday"] LanguageCode.en
          (.ok (workerCheckWords mondayEngine ["Monday", "monday"]))).2 LanguageCode.en :=
  ⟨by decide,
    (claim4_amended (initialService.checkWords ["Monday", "monday"] LanguageCode.en)
      ["Monday", "monday"] LanguageCode.en
      (workerCheckWords mondayEngine ["Monday", "monday"])
      (WF_of_checkWF _ (by decide))).2.2.2 ("monday", false) (by decide) rfl⟩

/-- C10: a `checkWord` still in flight when `clearCache()` runs never
records its result in the post-clear caches.  The issued continuation
captured the two `Set` objects before the clear; `clearCache` detaches
those objects from the per-language maps, so the delivery writes only
the detached sets, the current cache maps stay empty, and a subsequent
`checkWord` of the same word is a fresh cache miss issuing a new
protocol call. -/
theorem claim10_clear_detach (s : ServiceState) (w : String) (L : LanguageCode)
    (hWF : s.WF)
    (hlen : MIN_WORD_LENGTH ≤ (jsTrim w).length)
    (hc : jsToLower (jsTrim w) ∉ correctWordsOf s L)
    (hm : jsToLower (jsTrim w) ∉ misspelledWordsOf s L)
    (hp : alookup s.pendingChecks (L, jsToLower (jsTrim w)) = none) :
    ∃ cid mid,
      (s.checkWord w L).2.issuedChecks = s.issuedChecks ++
        [⟨s.nextPromiseId, jsToLower (jsTrim w), (L, jsToLower (jsTrim w)), cid, mid⟩] ∧
      ∀ (isCorrect : Bool) (s3 : ServiceState),
        s3 = (((s.checkWord w L).2.clearCache).deliverCheck
          ⟨s.nextPromiseId, jsToLower (jsTrim w), (L, jsToLower (jsTrim w)), cid, mid⟩
          (.ok isCorrect)).2 →
        s3.correctWordsCache = [] ∧
        s3.misspelledWordsCache = [] ∧
        s3.pendingChecks = [] ∧
        (isCorrect = true → jsToLower (jsTrim w) ∈ setContents s3 cid) ∧
        (isCorrect = false → jsToLower (jsTrim w) ∈ setContents s3 mid) ∧
        (s3.checkWord w L).1 = CheckResult.pending s3.nextPromiseId ∧
        (s3.checkWord w L).2.workerCalls =
          s3.workerCalls ++ [WorkerCall.checkWordCall (jsTrim w) L] := by
  obtain ⟨cid, mid, h1, hWF', hc1, hm1, hs1, hs2, hpend, hcalls, hnp, hsug, hic⟩ :=
    checkWord_fresh_spec s w L hWF hlen hc hm hp
  refine ⟨cid, mid, hic, ?_⟩
  intro isCorrect s3 hs3
  subst hs3
  have hdel : ((((s.checkWord w L).2.clearCache).deliverCheck
      ⟨s.nextPromiseId, jsToLower (jsTrim w), (L, jsToLower (jsTrim w)), cid, mid⟩
      (.ok isCorrect)).2) =
      { (s.checkWord w L).2 with
        correctWordsCache := [], misspelledWordsCache := [], suggestionsCache := [],
        pendingChecks := aremove ([] : List ((LanguageCode × String) × Nat))
          (L, jsToLower (jsTrim w)),
        sets := if isCorrect then addToSet (s.checkWord w L).2.sets cid (jsToLower (jsTrim w))
          else addToSet (s.checkWord w L).2.sets mid (jsToLower (jsTrim w)) } := by
    unfold ServiceState.clearCache ServiceState.deliverCheck
    rfl
  have harem : aremove ([] : List ((LanguageCode × String) × Nat))
      (L, jsToLower (jsTrim w)) = [] := rfl
  have hWF3 : ((((s.checkWord w L).2.clearCache).deliverCheck
      ⟨s.nextPromiseId, jsToLower (jsTrim w), (L, jsToLower (jsTrim w)), cid, mid⟩
      (.ok isCorrect)).2).WF := by
    rw [hdel]
    constructor <;> intro L' id' h' <;> simp [alookup] at h'
  have hcw3 : correctWordsOf ((((s.checkWord w L).2.clearCache).deliverCheck
      ⟨s.nextPromiseId, jsToLower (jsTrim w), (L, jsToLower (jsTrim w)), cid, mid⟩
      (.ok isCorrect)).2) L = [] := by
    rw [hdel]
    rfl
  have hmw3 : misspelledWordsOf ((((s.checkWord w L).2.clearCache).deliverCheck
      ⟨s.nextPromiseId, jsToLower (jsTrim w), (L, jsToLower (jsTrim w)), cid, mid⟩
      (.ok isCorrect)).2) L = [] := by
    rw [hdel]
    rfl
  obtain ⟨cid', mid', h1', hWF'', hc1', hm1', hs1', hs2', hpend', hcalls', hnp', hsug', hic'⟩ :=
    checkWord_fresh_spec _ w L hWF3 hlen (by rw [hcw3]; simp) (by rw [hmw3]; simp)
      (by rw [hdel]; exact rfl)
  refine ⟨by rw [hdel], by rw [hdel], by rw [hdel]; exact harem, ?_, ?_, h1', hcalls'⟩
  · intro hb
    subst hb
    rw [hdel]
    unfold setContents
    rw [if_pos rfl]
    exact addToSet_self_mem (jsToLower (jsTrim w)) hs1
  · intro hb
    subst hb
    rw [hdel]
    unfold setContents
    rw [if_neg (by simp)]
    exact addToSet_self_mem (jsToLower (jsTrim w)) hs2

/-- Witness for C10: a fresh service checking `helllo` for English. -/
theorem claim10_clear_detach_witness :
    ∃ cid mid,
      (initialService.checkWord "helllo" LanguageCode.en).2.issuedChecks =
        initialService.issuedChecks ++
          [⟨initialService.nextPromiseId, jsToLower (jsTrim "helllo"),
            (LanguageCode.en, jsToLower (jsTrim "helllo")), cid, mid⟩] ∧
      ∀ (isCorrect : Bool) (s3 : ServiceState),
        s3 = (((initialService.checkWord "helllo" LanguageCode.en).2.clearCache).deliverCheck
          ⟨initialService.nextPromiseId, jsToLower (jsTrim "helllo"),
            (LanguageCode.en, jsToLower (jsTrim "helllo")), cid, mid⟩
          (.ok isCorrect)).2 →
        s3.correctWordsCache = [] ∧
        s3.misspelledWordsCache = [] ∧
        s3.pendingChecks = [] ∧
        (isCorrect = true → jsToLower (jsTrim "helllo") ∈ setContents s3 cid) ∧
        (isCorrect = false → jsToLower (jsTrim "helllo") ∈ setContents s3 mid) ∧
        (s3.checkWord "helllo" LanguageCode.en).1 = CheckResult.pending s3.nextPromiseId ∧
        (s3.checkWord "helllo" LanguageCode.en).2.workerCalls =
          s3.workerCalls ++ [WorkerCall.checkWordCall (jsTrim "helllo") LanguageCode.en] :=
  claim10_clear_detach initialService "helllo" LanguageCode.en initialService_WF
    (by decide) (by decide) (by decide) (by decide)

end SpellCheck
